import Mathlib

/-!
Verification development for the line-layout / coordinate-mapping core of
src/navigator/SourceWidget.cc (namespace Nav).  UTF-16 code units are
modelled as Nat (values 0..65535), pixel coordinates as Int (Nat where the
source only ever produces non-negative values), and the collaborating
Qt/project services (font metrics, text-width cache, symbol index) as
explicit parameters.  Every definition below is a direct translation of the
corresponding C++ entity; deviations forced by the modelling (collaborators
whose code is not part of the repository snapshot) are flagged in the doc
comments.
-/

namespace SourceWidget

/-- Translation of the constant kTabStopSize = 8 from SourceWidget.cc. -/
def kTabStopSize : Nat := 8

/-- Modelled from the spec: a File collaborator exposing total line count,
line start offset, line length, a view of a line's text, and whole-file
content as a Unicode string.  A file is its list of lines, each a list of
UTF-16 code units; the full content joins the lines with the separator
code unit 10, matching lineStart/lineLength accessors below. -/
structure File where
  lines : List (List Nat)
deriving DecidableEq

/-- Modelled from the spec: File collaborator, total line count. -/
def File.lineCount (f : File) : Nat := f.lines.length

/-- Modelled from the spec: File collaborator, a view of one line's text
(without the trailing separator); line is 0-based. -/
def File.lineContent (f : File) (line : Nat) : List Nat := f.lines.getD line []

/-- Modelled from the spec: File collaborator, line length in code units. -/
def File.lineLength (f : File) (line : Nat) : Nat := (f.lineContent line).length

/-- Modelled from the spec: File collaborator, whole-file content; the
lines joined by the separator code unit 10. -/
def File.content (f : File) : List Nat := List.intercalate [10] f.lines

/-- Modelled from the spec: File collaborator, absolute offset of a line's
first code unit inside the full content (each earlier line contributes its
length plus one separator). -/
def File.lineStart (f : File) (line : Nat) : Nat :=
  ((f.lines.take line).map (fun l => l.length + 1)).sum

/-- Translation of Nav::FileLocation (declared in the File collaborator's
header): a 0-based (line, column) pair.  The C++ type also has a null
sentinel; the claims below only concern the non-null locations produced
while a file is loaded, so the sentinel is not modelled. -/
structure FileLocation where
  line : Nat
  column : Nat
deriving DecidableEq

/-- Translation of Nav::FileRange, a pair of locations; the C++ field name
end is a Lean keyword and is rendered endLoc. -/
structure FileRange where
  start : FileLocation
  endLoc : FileLocation
deriving DecidableEq

/-- Modelled from the spec: FileRange is empty when start == end. -/
def FileRange.isEmpty (r : FileRange) : Bool := decide (r.start = r.endLoc)

/-- Translation of isIdentifierChar: u <= 127 and (isalnum(u) or u == '_'),
with C-locale isalnum spelled out (ASCII digits, upper case, lower case). -/
def isIdentifierChar (u : Nat) : Bool :=
  u ≤ 127 &&
    ((48 ≤ u && u ≤ 57) || (65 ≤ u && u ≤ 90) || (97 ≤ u && u ≤ 122) || u == 95)

/-- Translation of measureLineLength: expand tab stops over the slice
data[start .. start+size); the C++ for-loop reads exactly the code units of
that slice, here realised as a fold over drop/take. -/
def measureLineLength (data : List Nat) (start size tabStopSize : Nat) : Nat :=
  ((data.drop start).take size).foldl
    (fun pos u =>
      if u = 9 then (pos + tabStopSize) / tabStopSize * tabStopSize else pos + 1)
    0

/-- Translation of CXXSyntaxHighlighter::Kind (collaborator enum; the
source switches over exactly these constructors, with KindDefault standing
for every remaining kind). -/
inductive Kind
  | KindComment
  | KindQuoted
  | KindNumber
  | KindDirective
  | KindKeyword
  | KindDefault
deriving DecidableEq

/-- Translation of the Qt::GlobalColor values used by SourceWidget.cc;
color0 is the value-initialised element a resized std::vector starts with. -/
inductive QtColor
  | color0
  | black
  | darkGreen
  | darkBlue
  | darkYellow
  | darkCyan
  | darkRed
  | darkMagenta
  | transparent
deriving DecidableEq

/-- Translation of colorForSyntaxKind. -/
def colorForSyntaxKind (kind : Kind) : QtColor :=
  match kind with
  | Kind.KindComment => QtColor.darkGreen
  | Kind.KindQuoted => QtColor.darkGreen
  | Kind.KindNumber => QtColor.darkBlue
  | Kind.KindDirective => QtColor.darkBlue
  | Kind.KindKeyword => QtColor.darkYellow
  | Kind.KindDefault => QtColor.black

/-- Translation of Nav::Ref as consumed by SourceWidgetView::setFile: a
semantic reference span with 1-based line and columns.  The indirection
through Project::querySymbolType(ref.symbolID()) is collapsed into the
symbolType string the lookup would return (the index is a collaborator). -/
structure Ref where
  line : Nat
  column : Nat
  endColumn : Nat
  symbolType : String
deriving DecidableEq

/-- Translation of the ColorForRef table: the mappings added in its
constructor, with Qt::transparent for every other symbol type (the map
lookup missing).  Symbol types absent from the project's string table are
never entered in the map, which coincides with the transparent default. -/
def colorForRefType (ty : String) : QtColor :=
  if ty = "GlobalVariable" then QtColor.darkCyan
  else if ty = "Field" then QtColor.darkRed
  else if ty = "Namespace" ∨ ty = "Struct" ∨ ty = "Class" ∨ ty = "Union" ∨
      ty = "Enum" ∨ ty = "Typedef" then QtColor.darkMagenta
  else QtColor.transparent

/-- Helper for the overwrite loop of setFile: n remaining iterations,
writing color c at index i, i+1, ... (out-of-range writes are dropped,
where the C++ std::vector indexing demands in-range positions). -/
def writeRangeAux (c : QtColor) (l : List QtColor) (i : Nat) : Nat → List QtColor
  | 0 => l
  | n + 1 => writeRangeAux c (l.set i c) (i + 1) n

/-- Translation of the loop for (i = column-1; i < endColumn-1; ++i)
m_syntaxColoring[offset + i] = color, as the half-open index interval
[start, stop). -/
def writeRange (l : List QtColor) (start stop : Nat) (c : QtColor) : List QtColor :=
  writeRangeAux c l start (stop - start)

/-- Translation of the per-reference body of the queryFileRefs callback in
SourceWidgetView::setFile: resolve the reference's color and, when it is
not transparent, overwrite every offset of the reference's span.  Columns
are 1-based in Ref, hence the minus ones. -/
def applyRef (f : File) (coloring : List QtColor) (r : Ref) : List QtColor :=
  let offset := f.lineStart (r.line - 1)
  let color := colorForRefType r.symbolType
  if color = QtColor.transparent then coloring
  else writeRange coloring (offset + (r.column - 1)) (offset + (r.endColumn - 1)) color

/-- Translation of the first coloring pass of SourceWidgetView::setFile:
m_syntaxColoring is resized to content.size() (new entries value-initialised
to color0) and entries below the classification array's size are set from
colorForSyntaxKind. -/
def initColoring (content : List Nat) (kinds : List Kind) : List QtColor :=
  (List.range content.length).map
    (fun i =>
      if i < kinds.length then colorForSyntaxKind (kinds.getD i Kind.KindDefault)
      else QtColor.color0)

/-- Translation of the color-array construction in SourceWidgetView::setFile:
the lexical pass followed by one applyRef per semantic reference, in the
order the index enumerates them. -/
def buildColoring (f : File) (kinds : List Kind) (refs : List Ref) : List QtColor :=
  refs.foldl (applyRef f) (initColoring f.content kinds)

/-- Bool test of whether a reference resolves to a non-transparent color and
its span covers absolute offset o; this is exactly the set of offsets that
the applyRef translation overwrites (up to the array length bound). -/
def refCoversB (f : File) (r : Ref) (o : Nat) : Bool :=
  decide (colorForRefType r.symbolType ≠ QtColor.transparent) &&
  decide (f.lineStart (r.line - 1) + (r.column - 1) ≤ o) &&
  decide (o < f.lineStart (r.line - 1) + (r.endColumn - 1))

/-- Translation of QChar::isHighSurrogate: the code unit lies in
[0xD800, 0xDC00). -/
def isHighSurrogate (u : Nat) : Bool := 55296 ≤ u && u < 56320

/-- Per-line context of the LineLayout class: the constructor arguments and
the fields fixed at construction.  twc models TextWidthCalculator::calculate
(a cached per-font glyph measurement, a collaborator; pixel widths are
non-negative, hence Nat), spaceWidth models m_fm.width(' ') so that
tabStopPx below is m_tabStopPx.  afterLine is the code unit sitting one
past the line inside the underlying content string; QStringRef::at reads it
when a high surrogate ends the line (m_lineContent is a view into the
file's content, so position size holds the line separator, or the string's
null terminator on the last line).  The vertical fields (m_lineTop,
m_lineHeight, m_lineBaselineY) only feed painting and are handled at the
view level by lineTopY, whose arithmetic is identical. -/
structure LLCtx where
  twc : List Nat → Nat
  spaceWidth : Nat
  marginLeft : Nat
  lineStartIndex : Nat
  lineContent : List Nat
  afterLine : Nat

/-- Translation of m_tabStopPx = m_fm.width(QChar(' ')) * kTabStopSize. -/
def tabStopPx (ctx : LLCtx) : Nat := ctx.spaceWidth * kTabStopSize

/-- Read of m_lineContent.at(i).  Positions below the line length read the
line itself; position size (reachable only through the lone-high-surrogate
path) reads the code unit following the line in the underlying content. -/
def lcAt (ctx : LLCtx) (i : Nat) : Nat :=
  if i < ctx.lineContent.length then ctx.lineContent.getD i 0 else ctx.afterLine

/-- Mutable per-character state of LineLayout: m_charIndex (an int, -1
before the first advance), m_charIsSurrogatePair, m_charLeft (pixels,
margin-exclusive), m_charWidth and m_charText. -/
structure LLState where
  charIndex : Int
  charIsSurrogatePair : Bool
  charLeft : Nat
  charWidth : Nat
  charText : List Nat
deriving DecidableEq

/-- State installed by the LineLayout constructor. -/
def llInit : LLState :=
  { charIndex := -1
    charIsSurrogatePair := false
    charLeft := 0
    charWidth := 0
    charText := [] }

/-- Translation of LineLayout::nextCharIndex:
m_charIndex + 1 + m_charIsSurrogatePair. -/
def nextCharIndex (s : LLState) : Int :=
  s.charIndex + 1 + (if s.charIsSurrogatePair then 1 else 0)

/-- Translation of LineLayout::hasMoreChars:
nextCharIndex() < m_lineContent.size(). -/
def hasMoreChars (ctx : LLCtx) (s : LLState) : Bool :=
  decide (nextCharIndex s < (ctx.lineContent.length : Int))

/-- Translation of LineLayout::advanceChar: skip over the previous
character, then analyze the next one (tab, surrogate pair, or plain code
unit).  The loops in the source only call this under hasMoreChars, where
nextCharIndex is non-negative, so the toNat cast is exact there. -/
def advanceChar (ctx : LLCtx) (s : LLState) : LLState :=
  let i : Nat := (nextCharIndex s).toNat
  let left : Nat := s.charLeft + s.charWidth
  let ch : Nat := lcAt ctx i
  if isHighSurrogate ch = false then
    if ch = 9 then
      { charIndex := (i : Int)
        charIsSurrogatePair := false
        charLeft := left
        charWidth := (left + tabStopPx ctx) / tabStopPx ctx * tabStopPx ctx - left
        charText := [] }
    else
      { charIndex := (i : Int)
        charIsSurrogatePair := false
        charLeft := left
        charWidth := ctx.twc [ch]
        charText := [ch] }
  else
    { charIndex := (i : Int)
      charIsSurrogatePair := true
      charLeft := left
      charWidth := ctx.twc [ch, lcAt ctx (i + 1)]
      charText := [ch, lcAt ctx (i + 1)] }

/-- Accessor LineLayout::charColumn: returns m_charIndex, the code-unit
index of the character's first unit within the line. -/
def LLState.charColumn (s : LLState) : Int := s.charIndex

/-- Accessor LineLayout::charLeft: m_lineLeftMargin + m_charLeft. -/
def charLeftAcc (ctx : LLCtx) (s : LLState) : Nat := ctx.marginLeft + s.charLeft

/-- Accessor LineLayout::charFileIndex: m_lineStartIndex + m_charIndex. -/
def charFileIndex (ctx : LLCtx) (s : LLState) : Int :=
  (ctx.lineStartIndex : Int) + s.charIndex

/-- The sequence of states produced by repeatedly calling advanceChar while
hasMoreChars holds, the iteration pattern shared by paintLine, hitTest and
locationToPoint.  Each advance consumes at least one code unit, so
lineContent.length units of fuel make the fueled recursion complete. -/
def llRun (ctx : LLCtx) (s : LLState) : Nat → List LLState
  | 0 => []
  | fuel + 1 =>
    if hasMoreChars ctx s then
      advanceChar ctx s :: llRun ctx (advanceChar ctx s) fuel
    else []

/-- The full run of a LineLayout cursor from its constructor state. -/
def lineStates (ctx : LLCtx) : List LLState :=
  llRun ctx llInit ctx.lineContent.length

/-- Translation of a QPoint. -/
structure QPoint where
  x : Int
  y : Int
deriving DecidableEq

/-- Ambient state of a SourceWidgetView with a loaded file: the margins,
the font-derived metrics (effectiveLineSpacing as lineHeight, the space
width and the width calculator), and m_file.  The m_file == NULL branches
of the source are outside this loaded-file model. -/
structure ViewCtx where
  twc : List Nat → Nat
  spaceWidth : Nat
  lineHeight : Nat
  marginLeft : Nat
  marginTop : Nat
  file : File

/-- The LineLayout constructor LineLayout(font, margins, file, line),
packaging the per-line context out of the view context. -/
def mkLL (v : ViewCtx) (line : Nat) : LLCtx :=
  { twc := v.twc
    spaceWidth := v.spaceWidth
    marginLeft := v.marginLeft
    lineStartIndex := v.file.lineStart line
    lineContent := v.file.lineContent line
    afterLine :=
      v.file.content.getD (v.file.lineStart line + (v.file.lineContent line).length) 0 }

/-- Translation of SourceWidgetView::lineTop(line):
effectiveLineSpacing(fontMetrics()) * line + m_margins.top(). -/
def lineTopY (v : ViewCtx) (line : Nat) : Int :=
  ((v.lineHeight * line + v.marginTop : Nat) : Int)

/-- C++ int division, which truncates toward zero (Lean's Int division
rounds toward negative infinity, so it is spelled out); the divisor is the
positive line height. -/
def cppDiv (a : Int) (b : Nat) : Int :=
  if 0 ≤ a then ((a.toNat / b : Nat) : Int) else -(((-a).toNat / b : Nat) : Int)

/-- The scan loop of SourceWidgetView::hitTest: advance the cursor and
return the first character with pixel.x() < charLeft() + charWidth(),
reporting its charColumn(). -/
def hitTestLoop (ctx : LLCtx) (s : LLState) (x : Int) : Nat → Option Int
  | 0 => none
  | fuel + 1 =>
    if hasMoreChars ctx s then
      if x < ((charLeftAcc ctx (advanceChar ctx s) + (advanceChar ctx s).charWidth : Nat) : Int)
      then some (advanceChar ctx s).charColumn
      else hitTestLoop ctx (advanceChar ctx s) x fuel
    else none

/-- Translation of SourceWidgetView::hitTest for a loaded file: the line is
pixel.y() minus the top margin over the line height with C++ int division;
negative lines clamp to (0,0), lines at or past lineCount() clamp to
(lineCount, 0), and otherwise the scan loop runs, falling back to the
line's length when no character matches. -/
def hitTest (v : ViewCtx) (p : QPoint) : FileLocation :=
  let line : Int := cppDiv (p.y - (v.marginTop : Int)) v.lineHeight
  if line < 0 then { line := 0, column := 0 }
  else if (v.file.lineCount : Int) ≤ line then { line := v.file.lineCount, column := 0 }
  else
    let ctx := mkLL v line.toNat
    match hitTestLoop ctx llInit p.x ctx.lineContent.length with
    | some c => { line := line.toNat, column := c.toNat }
    | none => { line := line.toNat, column := v.file.lineLength line.toNat }

/-- The scan loop of SourceWidgetView::locationToPoint: advance the cursor
until charColumn() equals the requested column and return charLeft();
when the loop exhausts the line, return charLeft() + charWidth() of the
state it stopped in. -/
def locToPointLoop (ctx : LLCtx) (s : LLState) (col : Int) : Nat → Nat
  | 0 => charLeftAcc ctx s + s.charWidth
  | fuel + 1 =>
    if hasMoreChars ctx s then
      if (advanceChar ctx s).charColumn = col then charLeftAcc ctx (advanceChar ctx s)
      else locToPointLoop ctx (advanceChar ctx s) col fuel
    else charLeftAcc ctx s + s.charWidth

/-- Translation of SourceWidgetView::locationToPoint for a loaded file and
a non-null location: lines at or past lineCount() map to the margin-left
pixel under the last line, and otherwise the scan loop provides the x
coordinate on the line's lineTop row. -/
def locationToPoint (v : ViewCtx) (loc : FileLocation) : QPoint :=
  if v.file.lineCount ≤ loc.line then
    { x := (v.marginLeft : Int), y := lineTopY v v.file.lineCount }
  else
    let ctx := mkLL v loc.line
    { x := ((locToPointLoop ctx llInit (loc.column : Int) ctx.lineContent.length : Nat) : Int)
      y := lineTopY v loc.line }

/-- Modelled from the spec: FileLocation::doesPointAtChar(file) (declared in
the File collaborator) tests that the location points at an actual
character, i.e. a valid line and a column below that line's length. -/
def doesPointAtChar (f : File) (pt : FileLocation) : Bool :=
  pt.line < f.lineCount && pt.column < f.lineLength pt.line

/-- Translation of the x1 loop of findWordAtLocation:
while (x1 - 1 >= 0 && isIdentifierChar(content.at(x1 - 1))) x1--. -/
def wordLeftEdge (content : List Nat) : Nat → Nat
  | 0 => 0
  | x + 1 => if isIdentifierChar (content.getD x 0) then wordLeftEdge content x else x + 1

/-- Translation of the x2 loop of findWordAtLocation:
while (x2 + 1 < content.size() && isIdentifierChar(content.at(x2 + 1))) x2++,
with enough fuel to walk the rest of the line. -/
def wordRightEdge (content : List Nat) (x : Nat) : Nat → Nat
  | 0 => x
  | fuel + 1 =>
    if x + 1 < content.length && isIdentifierChar (content.getD (x + 1) 0) then
      wordRightEdge content (x + 1) fuel
    else x

/-- Translation of SourceWidgetView::findWordAtLocation.  The C++ returns a
default-constructed (null, empty) FileRange when the location does not
point at a character; the model returns the empty range at pt, which is
likewise empty. -/
def findWordAtLocation (f : File) (pt : FileLocation) : FileRange :=
  if doesPointAtChar f pt = false then { start := pt, endLoc := pt }
  else
    let content := f.lineContent pt.line
    if isIdentifierChar (content.getD pt.column 0) = false then
      { start := pt, endLoc := { line := pt.line, column := pt.column + 1 } }
    else
      let x1 := wordLeftEdge content pt.column
      let x2 := wordRightEdge content pt.column content.length
      { start := { line := pt.line, column := x1 }
        endLoc := { line := pt.line, column := x2 + 1 } }

/-- Observable outcome of the mouse-release / context-menu handlers: do
nothing, navigate to the single symbol's definition, or put up a menu (the
general Back/Forward menu, the disabled no-symbols menu, or the menu
listing every candidate symbol with its cross-reference actions). -/
inductive UIAction
  | noAction
  | navigateToDef (symbol : String)
  | generalMenu
  | noSymbolsMenu
  | symbolMenu (symbols : List String)
deriving DecidableEq

/-- Translation of the navigation logic of SourceWidgetView::mouseReleaseEvent:
with m_selection at entry and findWordAtPoint(event->pos()), the clicked
identifier is the selection when the two agree; querySymbolsAtLocation (a
collaborator) supplies symbols, and navigation to the single symbol's
definition happens exactly when the list has size 1. -/
def mouseReleaseAction (selection wordAtPos : FileRange) (symbols : List String) :
    UIAction :=
  if selection.isEmpty then UIAction.noAction
  else if selection = wordAtPos then
    if symbols.length = 1 then UIAction.navigateToDef (symbols.getD 0 "")
    else UIAction.noAction
  else UIAction.noAction

/-- Translation of the menu choice of SourceWidgetView::contextMenuEvent:
a selection that disagrees with the word under the pointer is dropped; an
empty selection gets the general menu; otherwise querySymbolsAtLocation (a
collaborator) supplies symbols and the menu lists them all (or the disabled
no-symbols entry). -/
def contextMenuAction (selection wordAtPos : FileRange) (symbols : List String) :
    UIAction :=
  let selEmpty := selection.isEmpty || decide (selection ≠ wordAtPos)
  if selEmpty then UIAction.generalMenu
  else if symbols.isEmpty then UIAction.noSymbolsMenu
  else UIAction.symbolMenu symbols

/-- Runs of the advance loop: IsRun ctx s l states that l is exactly the
list of states a while-hasMoreChars/advanceChar loop visits from state s. -/
inductive IsRun (ctx : LLCtx) : LLState → List LLState → Prop
  | nil (s : LLState) (h : hasMoreChars ctx s = false) : IsRun ctx s []
  | cons (s : LLState) (l : List LLState) (h : hasMoreChars ctx s = true)
      (hrest : IsRun ctx (advanceChar ctx s) l) : IsRun ctx s (advanceChar ctx s :: l)

/-- Pixel coordinate just past the last character a loop visited (the
charLeft() + charWidth() fallback of locationToPoint). -/
def endOf (ctx : LLCtx) (s : LLState) (l : List LLState) : Nat :=
  charLeftAcc ctx (l.getLastD s) + (l.getLastD s).charWidth

/-! Small concrete instances used to evaluate the theorems below on closed
inputs: a 5-pixel-per-glyph width oracle, and a handful of tiny files. -/

/-- A concrete glyph-width oracle: every 1-or-2-unit run is 5 pixels per
code unit. -/
def sampleTwc : List Nat → Nat := fun l => 5 * l.length

/-- Concrete view over the one-line file "ab". -/
def vAB : ViewCtx :=
  { twc := sampleTwc, spaceWidth := 5, lineHeight := 10,
    marginLeft := 4, marginTop := 4, file := ⟨[[97, 98]]⟩ }

/-- Concrete view over the one-line file whose line is a surrogate pair
followed by the letter a. -/
def vPair : ViewCtx :=
  { twc := sampleTwc, spaceWidth := 5, lineHeight := 10,
    marginLeft := 4, marginTop := 4, file := ⟨[[55296, 56320, 97]]⟩ }

/-- Concrete view over a two-line file whose first line is a single lone
high surrogate. -/
def vLone : ViewCtx :=
  { twc := sampleTwc, spaceWidth := 5, lineHeight := 10,
    marginLeft := 4, marginTop := 4, file := ⟨[[55296], [97]]⟩ }

/-- Concrete view over the two-line file with first line "a", tab, "b". -/
def vTab : ViewCtx :=
  { twc := sampleTwc, spaceWidth := 5, lineHeight := 10,
    marginLeft := 4, marginTop := 4, file := ⟨[[97, 9, 98], [99]]⟩ }

/-- Concrete one-line file with content "int foo_bar;". -/
def fileWB : File := ⟨[[105, 110, 116, 32, 102, 111, 111, 95, 98, 97, 114, 59]]⟩

/-- Concrete one-line file with content "int x;". -/
def fileKW : File := ⟨[[105, 110, 116, 32, 120, 59]]⟩

/-- Lexical classification for fileKW: the keyword "int" and default
elsewhere. -/
def kindsKW : List Kind :=
  [Kind.KindKeyword, Kind.KindKeyword, Kind.KindKeyword,
   Kind.KindDefault, Kind.KindDefault, Kind.KindDefault]

/-- A semantic reference covering columns 1-3 of line 1 of fileKW whose
symbol resolves to a Field. -/
def refKW : Ref := ⟨1, 1, 4, "Field"⟩

/-! Helper lemmas about one advance of the cursor. -/

theorem advanceChar_charIndex (ctx : LLCtx) (s : LLState) :
    (advanceChar ctx s).charIndex = (((nextCharIndex s).toNat : Nat) : Int) := by
  simp only [advanceChar]
  split
  · split <;> rfl
  · rfl

theorem advanceChar_charLeft (ctx : LLCtx) (s : LLState) :
    (advanceChar ctx s).charLeft = s.charLeft + s.charWidth := by
  simp only [advanceChar]
  split
  · split <;> rfl
  · rfl

theorem advanceChar_pair (ctx : LLCtx) (s : LLState) :
    (advanceChar ctx s).charIsSurrogatePair =
      isHighSurrogate (lcAt ctx (nextCharIndex s).toNat) := by
  simp only [advanceChar]
  split
  · split <;> simp_all
  · simp_all

theorem charLeftAcc_advanceChar (ctx : LLCtx) (s : LLState) :
    charLeftAcc ctx (advanceChar ctx s) = charLeftAcc ctx s + s.charWidth := by
  simp [charLeftAcc, advanceChar_charLeft, Nat.add_assoc]

theorem nextCharIndex_advanceChar (ctx : LLCtx) (s : LLState) :
    nextCharIndex (advanceChar ctx s) =
      (((nextCharIndex s).toNat : Nat) : Int) + 1 +
        (if isHighSurrogate (lcAt ctx (nextCharIndex s).toNat) then 1 else 0) := by
  rw [nextCharIndex, advanceChar_charIndex, advanceChar_pair]

theorem nextCharIndex_advanceChar_ge (ctx : LLCtx) (s : LLState) :
    nextCharIndex s + 1 ≤ nextCharIndex (advanceChar ctx s) := by
  rw [nextCharIndex_advanceChar]
  have h1 : nextCharIndex s ≤ (((nextCharIndex s).toNat : Nat) : Int) := Int.self_le_toNat _
  split <;> omega

theorem isRun_llRun (ctx : LLCtx) :
    ∀ (fuel : Nat) (s : LLState),
      (ctx.lineContent.length : Int) ≤ nextCharIndex s + fuel →
      IsRun ctx s (llRun ctx s fuel) := by
  intro fuel
  induction fuel with
  | zero =>
    intro s hf
    exact IsRun.nil s (by simp only [hasMoreChars, decide_eq_false_iff_not]; omega)
  | succ fuel ih =>
    intro s hf
    by_cases h : hasMoreChars ctx s = true
    · simp only [llRun, h, if_true]
      exact IsRun.cons s _ h
        (ih _ (by have := nextCharIndex_advanceChar_ge ctx s; push_cast at hf ⊢; omega))
    · simp only [llRun, h, if_false]
      exact IsRun.nil s (by simpa using h)

theorem isRun_lineStates (ctx : LLCtx) : IsRun ctx llInit (lineStates ctx) := by
  apply isRun_llRun
  have h0 : nextCharIndex llInit = 0 := by simp [nextCharIndex, llInit]
  omega

/-! Pixel monotonicity facts about runs. -/

theorem isRun_left_le (ctx : LLCtx) {s : LLState} {l : List LLState} (h : IsRun ctx s l) :
    ∀ t ∈ l, charLeftAcc ctx s + s.charWidth ≤ charLeftAcc ctx t := by
  induction h with
  | nil => simp
  | cons s l hm hrest ih =>
    intro t ht
    rcases List.mem_cons.mp ht with rfl | ht
    · exact le_of_eq (charLeftAcc_advanceChar ctx s).symm
    · have h1 := charLeftAcc_advanceChar ctx s
      have h2 := ih t ht
      omega

theorem endOf_cons (ctx : LLCtx) (s t : LLState) (l : List LLState) :
    endOf ctx s (t :: l) = endOf ctx t l := by
  simp only [endOf, List.getLastD_cons]

theorem isRun_endOf_ge (ctx : LLCtx) {s : LLState} {l : List LLState} (h : IsRun ctx s l) :
    charLeftAcc ctx s + s.charWidth ≤ endOf ctx s l := by
  induction h with
  | nil => simp [endOf]
  | cons s l hm hrest ih =>
    rw [endOf_cons]
    have h1 := charLeftAcc_advanceChar ctx s
    omega

theorem isRun_member_end_le (ctx : LLCtx) {s : LLState} {l : List LLState}
    (h : IsRun ctx s l) : ∀ t ∈ l, charLeftAcc ctx t + t.charWidth ≤ endOf ctx s l := by
  induction h with
  | nil => simp
  | cons s l hm hrest ih =>
    intro t ht
    rw [endOf_cons]
    rcases List.mem_cons.mp ht with rfl | ht
    · exact isRun_endOf_ge ctx hrest
    · exact ih t ht

theorem getLastD_mem {α : Type _} : ∀ (l : List α) (a : α), l ≠ [] → l.getLastD a ∈ l
  | [x], _, _ => by simp [List.getLastD]
  | x :: y :: t, a, _ => by
    rw [List.getLastD_cons]
    exact List.mem_cons_of_mem x (getLastD_mem (y :: t) x (by simp))

/-! Column facts about runs. -/

theorem isRun_col_mem (ctx : LLCtx) {s : LLState} {l : List LLState} (h : IsRun ctx s l) :
    0 ≤ nextCharIndex s →
    ∀ t ∈ l, nextCharIndex s ≤ t.charColumn ∧
      t.charColumn < (ctx.lineContent.length : Int) := by
  induction h with
  | nil => simp
  | cons s l hm hrest ih =>
    intro h0 t ht
    have hcol : (advanceChar ctx s).charColumn = nextCharIndex s := by
      rw [LLState.charColumn, advanceChar_charIndex, Int.toNat_of_nonneg h0]
    have hlt : nextCharIndex s < (ctx.lineContent.length : Int) := by
      simpa [hasMoreChars] using hm
    have hge := nextCharIndex_advanceChar_ge ctx s
    rcases List.mem_cons.mp ht with rfl | ht
    · omega
    · have := ih (by omega) t ht
      omega

theorem isRun_col_pairwise (ctx : LLCtx) {s : LLState} {l : List LLState}
    (h : IsRun ctx s l) :
    0 ≤ nextCharIndex s → l.Pairwise (fun a b => a.charColumn < b.charColumn) := by
  induction h with
  | nil => simp
  | cons s l hm hrest ih =>
    intro h0
    have hge := nextCharIndex_advanceChar_ge ctx s
    have hcol : (advanceChar ctx s).charColumn = nextCharIndex s := by
      rw [LLState.charColumn, advanceChar_charIndex, Int.toNat_of_nonneg h0]
    refine List.pairwise_cons.mpr ⟨?_, ih (by omega)⟩
    intro b hb
    have := isRun_col_mem ctx hrest (by omega) b hb
    omega

theorem pairwise_col_inj {l : List LLState}
    (hp : l.Pairwise (fun a b => a.charColumn < b.charColumn)) :
    ∀ a ∈ l, ∀ b ∈ l, a.charColumn = b.charColumn → a = b := by
  induction l with
  | nil => simp
  | cons x xs ih =>
    rcases List.pairwise_cons.mp hp with ⟨hx, hxs⟩
    intro a ha b hb heq
    rcases List.mem_cons.mp ha with ha1 | ha1
    · rcases List.mem_cons.mp hb with hb1 | hb1
      · rw [ha1, hb1]
      · subst ha1
        exact absurd heq (by have := hx b hb1; omega)
    · rcases List.mem_cons.mp hb with hb1 | hb1
      · subst hb1
        exact absurd heq (by have := hx a ha1; omega)
      · exact ih hxs a ha1 b hb1 heq

/-! The two scan loops, characterized as find? searches over the run. -/

theorem hitTestLoop_spec (ctx : LLCtx) (x : Int) :
    ∀ (fuel : Nat) (s : LLState),
      hitTestLoop ctx s x fuel =
        ((llRun ctx s fuel).find?
            (fun t => decide (x < ((charLeftAcc ctx t + t.charWidth : Nat) : Int)))).map
          (fun t => t.charColumn) := by
  intro fuel
  induction fuel with
  | zero => intro s; rfl
  | succ fuel ih =>
    intro s
    by_cases hm : hasMoreChars ctx s = true
    · by_cases hx :
          x < ((charLeftAcc ctx (advanceChar ctx s) + (advanceChar ctx s).charWidth : Nat) : Int)
      · simp only [hitTestLoop, llRun, hm, if_true, hx]
        rw [List.find?_cons_of_pos _ (by simpa using hx)]
        rfl
      · simp only [hitTestLoop, llRun, hm, if_true, hx, if_false]
        rw [List.find?_cons_of_neg _ (by simpa using hx)]
        exact ih (advanceChar ctx s)
    · simp only [hitTestLoop, llRun, hm, if_false]
      rfl

theorem locToPointLoop_spec (ctx : LLCtx) (col : Int) :
    ∀ (fuel : Nat) (s : LLState),
      locToPointLoop ctx s col fuel =
        (match (llRun ctx s fuel).find? (fun t => decide (t.charColumn = col)) with
         | some t => charLeftAcc ctx t
         | none => endOf ctx s (llRun ctx s fuel)) := by
  intro fuel
  induction fuel with
  | zero => intro s; rfl
  | succ fuel ih =>
    intro s
    by_cases hm : hasMoreChars ctx s = true
    · by_cases hc : (advanceChar ctx s).charColumn = col
      · simp only [locToPointLoop, llRun, hm, if_true, hc]
        rw [List.find?_cons_of_pos _ (by simpa using hc)]
      · simp only [locToPointLoop, llRun, hm, if_true, hc, if_false]
        rw [List.find?_cons_of_neg _ (by simpa using hc)]
        rw [ih (advanceChar ctx s)]
        cases hfind : (llRun ctx (advanceChar ctx s) fuel).find?
            (fun t => decide (t.charColumn = col)) with
        | some t => rfl
        | none => simp only [endOf_cons]
    · simp only [locToPointLoop, llRun, hm, if_false]
      rfl

/-! Where the hit-test search lands when the probed x pixel is itself one of
the pixel coordinates that locationToPoint produces for this line. -/

theorem isRun_find_left (ctx : LLCtx) {s : LLState} {l : List LLState} (h : IsRun ctx s l) :
    ∀ {x : Int} {u : LLState},
      ((∃ t ∈ l, ((charLeftAcc ctx t : Nat) : Int) = x) ∨
        x = ((endOf ctx s l : Nat) : Int)) →
      ((charLeftAcc ctx s + s.charWidth : Nat) : Int) ≤ x →
      l.find? (fun t => decide (x < ((charLeftAcc ctx t + t.charWidth : Nat) : Int))) =
        some u →
      ((charLeftAcc ctx u : Nat) : Int) = x := by
  induction h with
  | nil =>
    intro x u _ _ hfind
    simp at hfind
  | cons s l hm hrest ih =>
    intro x u hx hlow hfind
    have hPs1 : charLeftAcc ctx (advanceChar ctx s) = charLeftAcc ctx s + s.charWidth :=
      charLeftAcc_advanceChar ctx s
    by_cases hp :
        x < ((charLeftAcc ctx (advanceChar ctx s) + (advanceChar ctx s).charWidth : Nat) : Int)
    · rw [List.find?_cons_of_pos _ (by simpa using hp)] at hfind
      have hu : advanceChar ctx s = u := by injection hfind
      subst hu
      rcases hx with ⟨t, ht, hxt⟩ | hend
      · rcases List.mem_cons.mp ht with rfl | ht
        · exact hxt
        · have h1 := isRun_left_le ctx hrest t ht
          omega
      · have h1 := isRun_endOf_ge ctx hrest
        rw [endOf_cons] at hend
        omega
    · rw [List.find?_cons_of_neg _ (by simpa using hp)] at hfind
      have hlow1 :
          ((charLeftAcc ctx (advanceChar ctx s) + (advanceChar ctx s).charWidth : Nat) : Int)
            ≤ x := by omega
      refine ih ?_ hlow1 hfind
      rcases hx with ⟨t, ht, hxt⟩ | hend
      · rcases List.mem_cons.mp ht with rfl | ht
        · cases hrest with
          | nil s2 h2 =>
            right
            simp only [endOf]
            simp only [List.getLastD]
            omega
          | cons s2 l2 h2 hrest2 =>
            left
            refine ⟨advanceChar ctx (advanceChar ctx s), List.mem_cons_self _ _, ?_⟩
            have h3 := charLeftAcc_advanceChar ctx (advanceChar ctx s)
            omega
        · exact Or.inl ⟨t, ht, hxt⟩
      · rw [endOf_cons] at hend
        exact Or.inr hend

theorem isRun_find_none (ctx : LLCtx) {s : LLState} {l : List LLState} (h : IsRun ctx s l)
    {x : Int}
    (hx : (∃ t ∈ l, ((charLeftAcc ctx t : Nat) : Int) = x) ∨
      x = ((endOf ctx s l : Nat) : Int))
    (hfind : l.find? (fun t => decide (x < ((charLeftAcc ctx t + t.charWidth : Nat) : Int)))
      = none) :
    x = ((endOf ctx s l : Nat) : Int) := by
  rcases hx with ⟨t, ht, hxt⟩ | hend
  · have hall := List.find?_eq_none.mp hfind
    have h2 := isRun_member_end_le ctx h t ht
    have hne : l ≠ [] := by
      intro h3
      subst h3
      simp at ht
    have hlast := getLastD_mem l s hne
    have h3 :
        ¬ x < ((charLeftAcc ctx (l.getLastD s) + (l.getLastD s).charWidth : Nat) : Int) := by
      simpa using hall _ hlast
    simp only [endOf] at h2 ⊢
    omega
  · exact hend

theorem isRun_find_contains (ctx : LLCtx) {s : LLState} {l : List LLState}
    (h : IsRun ctx s l) (x : Int) :
    ((charLeftAcc ctx s + s.charWidth : Nat) : Int) ≤ x →
    l.find? (fun t => decide (((charLeftAcc ctx t : Nat) : Int) ≤ x ∧
        x < ((charLeftAcc ctx t + t.charWidth : Nat) : Int))) =
      l.find? (fun t => decide (x < ((charLeftAcc ctx t + t.charWidth : Nat) : Int))) := by
  induction h with
  | nil => intro _; rfl
  | cons s l hm hrest ih =>
    intro hlow
    have hP := charLeftAcc_advanceChar ctx s
    by_cases hp :
        x < ((charLeftAcc ctx (advanceChar ctx s) + (advanceChar ctx s).charWidth : Nat) : Int)
    · rw [List.find?_cons_of_pos _
          (by simp only [decide_eq_true_eq]; exact ⟨by omega, hp⟩),
        List.find?_cons_of_pos _ (by simpa using hp)]
    · rw [List.find?_cons_of_neg _ (by simp only [decide_eq_true_eq]; omega),
        List.find?_cons_of_neg _ (by simpa using hp)]
      exact ih (by omega)

/-! Arithmetic facts about the truncating division used for the line index. -/

theorem cppDiv_neg (a : Int) (b : Nat) (hb : 0 < b) (ha : a ≤ -(b : Int)) :
    cppDiv a b < 0 := by
  have ha0 : ¬ 0 ≤ a := by omega
  simp only [cppDiv, ha0, if_false]
  have h1 : b ≤ (-a).toNat := by omega
  have h2 : 1 ≤ (-a).toNat / b := (Nat.le_div_iff_mul_le hb).mpr (by omega)
  omega

theorem cppDiv_ge (a : Int) (b : Nat) (n : Nat) (hb : 0 < b)
    (ha : ((n * b : Nat) : Int) ≤ a) : (n : Int) ≤ cppDiv a b := by
  have ha0 : 0 ≤ a := by omega
  simp only [cppDiv, ha0, if_true]
  have hl : n * b ≤ a.toNat := by omega
  have h1 : n ≤ a.toNat / b := (Nat.le_div_iff_mul_le hb).mpr hl
  omega

theorem cppDiv_band (a : Int) (b : Nat) (n : Nat) (hb : 0 < b)
    (h1 : ((n * b : Nat) : Int) ≤ a) (h2 : a < (((n + 1) * b : Nat) : Int)) :
    cppDiv a b = (n : Int) := by
  have ha0 : 0 ≤ a := by omega
  simp only [cppDiv, ha0, if_true]
  have hl : n * b ≤ a.toNat := by omega
  have hr : a.toNat < (n + 1) * b := by omega
  have hdiv : a.toNat / b = n :=
    le_antisymm (Nat.lt_succ_iff.mp ((Nat.div_lt_iff_lt_mul hb).mpr hr))
      ((Nat.le_div_iff_mul_le hb).mpr hl)
  omega

theorem cppDiv_small (a : Int) (b : Nat) (_hb : 0 < b)
    (h1 : -(b : Int) < a) (h2 : a < (b : Int)) : cppDiv a b = 0 := by
  by_cases ha : 0 ≤ a
  · simp only [cppDiv, ha, if_true]
    rw [Nat.div_eq_of_lt (by omega)]
    rfl
  · simp only [cppDiv, ha, if_false]
    rw [Nat.div_eq_of_lt (by omega)]
    rfl

/-! Branch characterizations of hitTest and locationToPoint. -/

theorem hitTest_band (v : ViewCtx) (p : QPoint) (line : Nat)
    (hH : 0 < v.lineHeight) (hl : line < v.file.lineCount)
    (hy1 : ((v.marginTop + line * v.lineHeight : Nat) : Int) ≤ p.y)
    (hy2 : p.y < ((v.marginTop + (line + 1) * v.lineHeight : Nat) : Int)) :
    hitTest v p =
      (match hitTestLoop (mkLL v line) llInit p.x (mkLL v line).lineContent.length with
       | some c => { line := line, column := c.toNat }
       | none => { line := line, column := v.file.lineLength line }) := by
  have hdiv : cppDiv (p.y - (v.marginTop : Int)) v.lineHeight = (line : Int) := by
    apply cppDiv_band _ _ _ hH
    · push_cast at hy1 ⊢
      omega
    · push_cast at hy2 ⊢
      omega
  simp only [hitTest, hdiv]
  rw [if_neg (by omega), if_neg (by omega)]
  simp only [Int.toNat_natCast]

theorem hitTest_of_cppDiv (v : ViewCtx) (p : QPoint) (line : Nat)
    (hl : line < v.file.lineCount)
    (hdiv : cppDiv (p.y - (v.marginTop : Int)) v.lineHeight = (line : Int)) :
    hitTest v p =
      (match hitTestLoop (mkLL v line) llInit p.x (mkLL v line).lineContent.length with
       | some c => { line := line, column := c.toNat }
       | none => { line := line, column := v.file.lineLength line }) := by
  simp only [hitTest, hdiv]
  rw [if_neg (by omega), if_neg (by omega)]
  simp only [Int.toNat_natCast]

theorem hitTest_scan_of_cppDiv (v : ViewCtx) (p : QPoint) (line : Nat)
    (hl : line < v.file.lineCount)
    (hdiv : cppDiv (p.y - (v.marginTop : Int)) v.lineHeight = (line : Int)) :
    hitTest v p =
      (match (lineStates (mkLL v line)).find?
          (fun t => decide (p.x <
            ((charLeftAcc (mkLL v line) t + t.charWidth : Nat) : Int))) with
       | some u => { line := line, column := u.charColumn.toNat }
       | none => { line := line, column := v.file.lineLength line }) := by
  rw [hitTest_of_cppDiv v p line hl hdiv]
  rw [hitTestLoop_spec (mkLL v line) p.x (mkLL v line).lineContent.length llInit]
  cases hw : (lineStates (mkLL v line)).find?
      (fun t => decide (p.x <
        ((charLeftAcc (mkLL v line) t + t.charWidth : Nat) : Int))) with
  | some w =>
    have hw' : (llRun (mkLL v line) llInit (mkLL v line).lineContent.length).find?
        (fun t => decide (p.x <
          ((charLeftAcc (mkLL v line) t + t.charWidth : Nat) : Int))) = some w := hw
    rw [hw']
    rfl
  | none =>
    have hw' : (llRun (mkLL v line) llInit (mkLL v line).lineContent.length).find?
        (fun t => decide (p.x <
          ((charLeftAcc (mkLL v line) t + t.charWidth : Nat) : Int))) = none := hw
    rw [hw']
    rfl

theorem locationToPoint_in_range (v : ViewCtx) (line col : Nat)
    (hl : line < v.file.lineCount) :
    locationToPoint v { line := line, column := col } =
      { x := ((locToPointLoop (mkLL v line) llInit (col : Int)
                (mkLL v line).lineContent.length : Nat) : Int)
        y := lineTopY v line } := by
  simp only [locationToPoint]
  rw [if_neg (by omega)]

/-- C3: Round-trip consistency: for every character location in every line
of a loaded file, pointAt(locate(pointAt(location))) equals
pointAt(location), i.e. converting a location to a pixel, hit-testing that
pixel back to a location, and converting again yields the same pixel.
Character locations are the columns the line's cursor run visits; the line
height is positive for any real font, and a positive space width keeps the
tab-stop division inside defined C++ arithmetic. -/
theorem round_trip (v : ViewCtx) (hH : 0 < v.lineHeight) (_hS : 0 < v.spaceWidth)
    (line col : Nat) (hl : line < v.file.lineCount)
    (hc : ∃ t ∈ lineStates (mkLL v line), t.charColumn = (col : Int)) :
    locationToPoint v (hitTest v (locationToPoint v { line := line, column := col })) =
      locationToPoint v { line := line, column := col } := by
  set ctx := mkLL v line with hctx
  have hrun : IsRun ctx llInit (lineStates ctx) := isRun_lineStates ctx
  have h00 : nextCharIndex llInit = 0 := by simp [nextCharIndex, llInit]
  obtain ⟨t0, ht0, ht0c⟩ := hc
  have hsome :
      ((lineStates ctx).find? (fun t => decide (t.charColumn = (col : Int)))).isSome := by
    exact List.find?_isSome.mpr ⟨t0, ht0, by simp [ht0c]⟩
  obtain ⟨u, hu⟩ := Option.isSome_iff_exists.mp hsome
  have humem : u ∈ lineStates ctx := List.mem_of_find?_eq_some hu
  have hx1 : locToPointLoop ctx llInit (col : Int) ctx.lineContent.length =
      charLeftAcc ctx u := by
    rw [locToPointLoop_spec ctx (col : Int) ctx.lineContent.length llInit]
    show (match (lineStates ctx).find? (fun t => decide (t.charColumn = (col : Int))) with
          | some t => charLeftAcc ctx t
          | none => endOf ctx llInit (lineStates ctx)) = charLeftAcc ctx u
    rw [hu]
  rw [locationToPoint_in_range v line col hl, ← hctx, hx1]
  have e2 : v.marginTop + (line + 1) * v.lineHeight =
      v.lineHeight * line + v.marginTop + v.lineHeight := by ring
  have hy1 : ((v.marginTop + line * v.lineHeight : Nat) : Int) ≤ lineTopY v line := by
    simp only [lineTopY]
    exact_mod_cast le_of_eq (by ring)
  have hy2 : lineTopY v line < ((v.marginTop + (line + 1) * v.lineHeight : Nat) : Int) := by
    simp only [lineTopY, e2]
    exact_mod_cast (by omega : v.lineHeight * line + v.marginTop <
      v.lineHeight * line + v.marginTop + v.lineHeight)
  rw [hitTest_band v _ line hH hl hy1 hy2, ← hctx]
  rw [hitTestLoop_spec ctx _ ctx.lineContent.length llInit]
  have hlow : ((charLeftAcc ctx llInit + llInit.charWidth : Nat) : Int) ≤
      ((charLeftAcc ctx u : Nat) : Int) := by
    have e3 : charLeftAcc ctx llInit + llInit.charWidth = ctx.marginLeft := by
      simp [charLeftAcc, llInit]
    rw [e3]
    exact_mod_cast Nat.le_add_right ctx.marginLeft u.charLeft
  cases hw : (lineStates ctx).find?
      (fun t => decide (((charLeftAcc ctx u : Nat) : Int) <
        ((charLeftAcc ctx t + t.charWidth : Nat) : Int))) with
  | some w =>
    have hw' : (llRun ctx llInit ctx.lineContent.length).find?
        (fun t => decide (((charLeftAcc ctx u : Nat) : Int) <
          ((charLeftAcc ctx t + t.charWidth : Nat) : Int))) = some w := hw
    rw [hw']
    have hPw : ((charLeftAcc ctx w : Nat) : Int) = ((charLeftAcc ctx u : Nat) : Int) :=
      isRun_find_left ctx hrun (Or.inl ⟨u, humem, rfl⟩) hlow hw
    have hwmem : w ∈ lineStates ctx := List.mem_of_find?_eq_some hw
    have hwcol := isRun_col_mem ctx hrun (by omega) w hwmem
    have hw0 : 0 ≤ w.charColumn := by omega
    show locationToPoint v { line := line, column := w.charColumn.toNat } =
      QPoint.mk ((charLeftAcc ctx u : Nat) : Int) (lineTopY v line)
    rw [locationToPoint_in_range v line w.charColumn.toNat hl, ← hctx]
    have hx2 : locToPointLoop ctx llInit ((w.charColumn.toNat : Nat) : Int)
        ctx.lineContent.length = charLeftAcc ctx w := by
      rw [Int.toNat_of_nonneg hw0]
      rw [locToPointLoop_spec ctx w.charColumn ctx.lineContent.length llInit]
      have hsome2 :
          ((lineStates ctx).find? (fun t => decide (t.charColumn = w.charColumn))).isSome :=
        List.find?_isSome.mpr ⟨w, hwmem, by simp⟩
      obtain ⟨w2, hw2⟩ := Option.isSome_iff_exists.mp hsome2
      have hw2mem : w2 ∈ lineStates ctx := List.mem_of_find?_eq_some hw2
      have hw2col : w2.charColumn = w.charColumn := by simpa using List.find?_some hw2
      have hw2w : w2 = w :=
        pairwise_col_inj (isRun_col_pairwise ctx hrun (by omega)) w2 hw2mem w hwmem hw2col
      show (match (lineStates ctx).find? (fun t => decide (t.charColumn = w.charColumn)) with
            | some t => charLeftAcc ctx t
            | none => endOf ctx llInit (lineStates ctx)) = charLeftAcc ctx w
      rw [hw2, hw2w]
    rw [hx2]
    have hPw' : charLeftAcc ctx w = charLeftAcc ctx u := by exact_mod_cast hPw
    rw [hPw']
  | none =>
    have hw' : (llRun ctx llInit ctx.lineContent.length).find?
        (fun t => decide (((charLeftAcc ctx u : Nat) : Int) <
          ((charLeftAcc ctx t + t.charWidth : Nat) : Int))) = none := hw
    rw [hw']
    have hend : ((charLeftAcc ctx u : Nat) : Int) =
        ((endOf ctx llInit (lineStates ctx) : Nat) : Int) :=
      isRun_find_none ctx hrun (Or.inl ⟨u, humem, rfl⟩) hw
    show locationToPoint v { line := line, column := v.file.lineLength line } =
      QPoint.mk ((charLeftAcc ctx u : Nat) : Int) (lineTopY v line)
    rw [locationToPoint_in_range v line (v.file.lineLength line) hl, ← hctx]
    have hx2 : locToPointLoop ctx llInit ((v.file.lineLength line : Nat) : Int)
        ctx.lineContent.length = endOf ctx llInit (lineStates ctx) := by
      rw [locToPointLoop_spec ctx _ ctx.lineContent.length llInit]
      have hnone : (lineStates ctx).find?
          (fun t => decide (t.charColumn = ((v.file.lineLength line : Nat) : Int))) = none := by
        apply List.find?_eq_none.mpr
        intro t ht
        have hcols := isRun_col_mem ctx hrun (by omega) t ht
        have hlen : ctx.lineContent.length = v.file.lineLength line := rfl
        simp only [decide_eq_true_eq]
        omega
      show (match (lineStates ctx).find?
              (fun t => decide (t.charColumn = ((v.file.lineLength line : Nat) : Int))) with
            | some t => charLeftAcc ctx t
            | none => endOf ctx llInit (lineStates ctx)) = endOf ctx llInit (lineStates ctx)
      rw [hnone]
    rw [hx2]
    rw [show ((endOf ctx llInit (lineStates ctx) : Nat) : Int) =
      ((charLeftAcc ctx u : Nat) : Int) from hend.symm]

/-- C3 witness: the round trip evaluated at the character location (0, 2)
of the loaded two-line file of vTab. -/
theorem round_trip_witness :
    (0 < vTab.lineHeight ∧ 0 < vTab.spaceWidth ∧ 0 < vTab.file.lineCount ∧
      (∃ t ∈ lineStates (mkLL vTab 0), t.charColumn = ((2 : Nat) : Int))) ∧
    locationToPoint vTab (hitTest vTab (locationToPoint vTab { line := 0, column := 2 })) =
      locationToPoint vTab { line := 0, column := 2 } :=
  ⟨⟨by decide, by decide, by decide, by decide⟩,
    round_trip vTab (by decide) (by decide) 0 2 (by decide) (by decide)⟩

/-- C4 (amended): clamping of the hit test.  The (0,0) clamp fires exactly
for a negative computed line index: a pixel at least one full line height
above the top margin clamps to (0,0), and a pixel less than one line
height above the first line is instead hit-tested on line 0 exactly like
an in-band line-0 pixel (toward-zero int division maps its y to line 0),
so above-the-first-line pixels do not clamp in general.  Every pixel below
the last line yields (lineCount, 0).  An in-band pixel yields the first
character of its line whose span's right edge strictly exceeds x, or one
past the last character when x is at or beyond every right edge; for x at
or right of the left margin this is precisely the first character whose
pixel span contains x, or, when no character's span does (pointer past the
end of the line), the location one past the last character. -/
theorem hit_test_clamping_amended (v : ViewCtx) (p : QPoint) (hH : 0 < v.lineHeight) :
    (p.y ≤ (v.marginTop : Int) - (v.lineHeight : Int) →
      hitTest v p = { line := 0, column := 0 }) ∧
    ((v.marginTop : Int) - (v.lineHeight : Int) < p.y →
      p.y < (v.marginTop : Int) + (v.lineHeight : Int) →
      0 < v.file.lineCount →
      hitTest v p =
        (match (lineStates (mkLL v 0)).find?
            (fun t => decide (p.x <
              ((charLeftAcc (mkLL v 0) t + t.charWidth : Nat) : Int))) with
         | some u => { line := 0, column := u.charColumn.toNat }
         | none => { line := 0, column := v.file.lineLength 0 })) ∧
    ((v.marginTop : Int) + ((v.file.lineCount * v.lineHeight : Nat) : Int) ≤ p.y →
      hitTest v p = { line := v.file.lineCount, column := 0 }) ∧
    (∀ line : Nat, line < v.file.lineCount →
      ((v.marginTop + line * v.lineHeight : Nat) : Int) ≤ p.y →
      p.y < ((v.marginTop + (line + 1) * v.lineHeight : Nat) : Int) →
      (hitTest v p =
        (match (lineStates (mkLL v line)).find?
            (fun t => decide (p.x <
              ((charLeftAcc (mkLL v line) t + t.charWidth : Nat) : Int))) with
         | some u => { line := line, column := u.charColumn.toNat }
         | none => { line := line, column := v.file.lineLength line }) ∧
       ((∀ t ∈ lineStates (mkLL v line),
           ((charLeftAcc (mkLL v line) t + t.charWidth : Nat) : Int) ≤ p.x) →
         hitTest v p = { line := line, column := v.file.lineLength line }))) ∧
    (∀ line : Nat, line < v.file.lineCount →
      ((v.marginTop + line * v.lineHeight : Nat) : Int) ≤ p.y →
      p.y < ((v.marginTop + (line + 1) * v.lineHeight : Nat) : Int) →
      (v.marginLeft : Int) ≤ p.x →
      hitTest v p =
        (match (lineStates (mkLL v line)).find?
            (fun t => decide (((charLeftAcc (mkLL v line) t : Nat) : Int) ≤ p.x ∧
              p.x < ((charLeftAcc (mkLL v line) t + t.charWidth : Nat) : Int))) with
         | some u => { line := line, column := u.charColumn.toNat }
         | none => { line := line, column := v.file.lineLength line })) := by
  refine ⟨?_, ?_, ?_, ?_, ?_⟩
  · intro hy
    have hdiv : cppDiv (p.y - (v.marginTop : Int)) v.lineHeight < 0 :=
      cppDiv_neg _ _ hH (by omega)
    simp only [hitTest]
    rw [if_pos hdiv]
  · intro hy1 hy2 h0
    have hdiv : cppDiv (p.y - (v.marginTop : Int)) v.lineHeight = ((0 : Nat) : Int) := by
      rw [cppDiv_small _ _ hH (by omega) (by omega)]
      rfl
    exact hitTest_scan_of_cppDiv v p 0 h0 hdiv
  · intro hy
    have hge : (v.file.lineCount : Int) ≤ cppDiv (p.y - (v.marginTop : Int)) v.lineHeight :=
      cppDiv_ge _ _ _ hH (by omega)
    simp only [hitTest]
    rw [if_neg (by omega), if_pos hge]
  · intro line hl hy1 hy2
    have hdiv : cppDiv (p.y - (v.marginTop : Int)) v.lineHeight = (line : Int) := by
      apply cppDiv_band _ _ _ hH
      · push_cast at hy1 ⊢
        omega
      · push_cast at hy2 ⊢
        omega
    have hscan := hitTest_scan_of_cppDiv v p line hl hdiv
    refine ⟨hscan, ?_⟩
    intro hall
    have hnone : (lineStates (mkLL v line)).find?
        (fun t => decide (p.x <
          ((charLeftAcc (mkLL v line) t + t.charWidth : Nat) : Int))) = none := by
      apply List.find?_eq_none.mpr
      intro t ht
      have := hall t ht
      simp only [decide_eq_true_eq]
      omega
    rw [hscan, hnone]
  · intro line hl hy1 hy2 hx
    have hdiv : cppDiv (p.y - (v.marginTop : Int)) v.lineHeight = (line : Int) := by
      apply cppDiv_band _ _ _ hH
      · push_cast at hy1 ⊢
        omega
      · push_cast at hy2 ⊢
        omega
    have hscan := hitTest_scan_of_cppDiv v p line hl hdiv
    have hlow : ((charLeftAcc (mkLL v line) llInit + llInit.charWidth : Nat) : Int) ≤ p.x := by
      have e : charLeftAcc (mkLL v line) llInit + llInit.charWidth = v.marginLeft := by
        simp [charLeftAcc, llInit, mkLL]
      rw [e]
      exact hx
    have hpred := isRun_find_contains (mkLL v line) (isRun_lineStates (mkLL v line)) p.x hlow
    rw [hscan, hpred]

/-- C4 counterexample: in vAB the pixel (10, 0) lies strictly above the
first line (its y is less than the 4-pixel top margin), yet hitTest does
not clamp to (0,0): toward-zero division maps the pixel to line 0 and the
scan returns the second character, (0, 1). -/
theorem hit_test_clamping_cex :
    ((0 : Int) < (vAB.marginTop : Int)) ∧
    hitTest vAB { x := 10, y := 0 } = { line := 0, column := 1 } ∧
    ¬ hitTest vAB { x := 10, y := 0 } = { line := 0, column := 0 } := by decide

/-- C4 witness: the amended clamping theorem evaluated on vAB at a pixel
two line heights above the widget (it clamps to (0,0)), at the pixel
(10, 0) less than one line height above the first line (it is hit-tested
on line 0 like an in-band pixel), and at the in-band pixel (10, 5) right
of the left margin (the span-containment characterization). -/
theorem hit_test_clamping_amended_witness :
    (0 < vAB.lineHeight ∧
      (-20 : Int) ≤ (vAB.marginTop : Int) - (vAB.lineHeight : Int) ∧
      (vAB.marginTop : Int) - (vAB.lineHeight : Int) < (0 : Int) ∧
      (0 : Int) < (vAB.marginTop : Int) + (vAB.lineHeight : Int) ∧
      0 < vAB.file.lineCount ∧
      ((vAB.marginTop + 0 * vAB.lineHeight : Nat) : Int) ≤ (5 : Int) ∧
      (5 : Int) < ((vAB.marginTop + (0 + 1) * vAB.lineHeight : Nat) : Int) ∧
      (vAB.marginLeft : Int) ≤ (10 : Int)) ∧
    hitTest vAB { x := 10, y := -20 } = { line := 0, column := 0 } ∧
    hitTest vAB { x := 10, y := 0 } =
      (match (lineStates (mkLL vAB 0)).find?
          (fun t => decide ((QPoint.mk 10 0).x <
            ((charLeftAcc (mkLL vAB 0) t + t.charWidth : Nat) : Int))) with
       | some u => { line := 0, column := u.charColumn.toNat }
       | none => { line := 0, column := vAB.file.lineLength 0 }) ∧
    hitTest vAB { x := 10, y := 5 } =
      (match (lineStates (mkLL vAB 0)).find?
          (fun t => decide (((charLeftAcc (mkLL vAB 0) t : Nat) : Int) ≤
              (QPoint.mk 10 5).x ∧
            (QPoint.mk 10 5).x <
              ((charLeftAcc (mkLL vAB 0) t + t.charWidth : Nat) : Int))) with
       | some u => { line := 0, column := u.charColumn.toNat }
       | none => { line := 0, column := vAB.file.lineLength 0 }) :=
  ⟨⟨by decide, by decide, by decide, by decide, by decide, by decide, by decide, by decide⟩,
    (hit_test_clamping_amended vAB { x := 10, y := -20 } (by decide)).1 (by decide),
    (hit_test_clamping_amended vAB { x := 10, y := 0 } (by decide)).2.1
      (by decide) (by decide) (by decide),
    (hit_test_clamping_amended vAB { x := 10, y := 5 } (by decide)).2.2.2.2 0
      (by decide) (by decide) (by decide) (by decide)⟩

/-! Monotonicity helpers. -/

theorem isRun_left_chain (ctx : LLCtx) {s : LLState} {l : List LLState} (h : IsRun ctx s l) :
    List.Chain (fun t u => charLeftAcc ctx u = charLeftAcc ctx t + t.charWidth ∧
      charLeftAcc ctx t ≤ charLeftAcc ctx u ∧
      (0 < t.charWidth → charLeftAcc ctx t < charLeftAcc ctx u)) s l := by
  induction h with
  | nil => exact List.Chain.nil
  | cons s l hm hrest ih =>
    refine List.chain_cons.mpr ⟨?_, ih⟩
    have h1 := charLeftAcc_advanceChar ctx s
    exact ⟨h1, by omega, by omega⟩

theorem isRun_left_pairwise (ctx : LLCtx) {s : LLState} {l : List LLState}
    (h : IsRun ctx s l) :
    List.Pairwise (fun t u => charLeftAcc ctx t ≤ charLeftAcc ctx u) l := by
  induction h with
  | nil => exact List.Pairwise.nil
  | cons s l hm hrest ih =>
    refine List.pairwise_cons.mpr ⟨?_, ih⟩
    intro b hb
    have h1 := isRun_left_le ctx hrest b hb
    have h2 := charLeftAcc_advanceChar ctx s
    omega

/-- C8: Layout monotonicity: along the run of states a line's cursor
produces, each successive pixel left edge equals the previous left edge
plus the previous width, hence the left edges are non-decreasing in
character order, strictly increasing across any character of positive
width, and pairwise non-decreasing along the whole line.  A positive space
width keeps the tab division inside defined C++ arithmetic. -/
theorem layout_monotonicity (ctx : LLCtx) (_hS : 0 < ctx.spaceWidth) :
    List.Chain' (fun t u => charLeftAcc ctx u = charLeftAcc ctx t + t.charWidth ∧
      charLeftAcc ctx t ≤ charLeftAcc ctx u ∧
      (0 < t.charWidth → charLeftAcc ctx t < charLeftAcc ctx u)) (lineStates ctx) ∧
    List.Pairwise (fun t u => charLeftAcc ctx t ≤ charLeftAcc ctx u) (lineStates ctx) := by
  have hrun := isRun_lineStates ctx
  constructor
  · cases hls : lineStates ctx with
    | nil => exact List.chain'_nil
    | cons a l =>
      rw [hls] at hrun
      have hchain := isRun_left_chain ctx hrun
      exact (List.chain_cons.mp hchain).2
  · exact isRun_left_pairwise ctx hrun

/-- C8 witness: the monotonicity facts evaluated over the tab-containing
first line of vTab. -/
theorem layout_monotonicity_witness :
    (0 < (mkLL vTab 0).spaceWidth) ∧
    (List.Chain' (fun t u => charLeftAcc (mkLL vTab 0) u =
        charLeftAcc (mkLL vTab 0) t + t.charWidth ∧
      charLeftAcc (mkLL vTab 0) t ≤ charLeftAcc (mkLL vTab 0) u ∧
      (0 < t.charWidth → charLeftAcc (mkLL vTab 0) t < charLeftAcc (mkLL vTab 0) u))
      (lineStates (mkLL vTab 0)) ∧
    List.Pairwise (fun t u => charLeftAcc (mkLL vTab 0) t ≤ charLeftAcc (mkLL vTab 0) u)
      (lineStates (mkLL vTab 0))) :=
  ⟨by decide, layout_monotonicity (mkLL vTab 0) (by decide)⟩

/-! Column-advance helpers. -/

theorem isRun_colStep_chain (ctx : LLCtx) {s : LLState} {l : List LLState}
    (h : IsRun ctx s l) :
    0 ≤ nextCharIndex s →
    List.Chain (fun t u => u.charColumn =
      t.charColumn + 1 + (if t.charIsSurrogatePair then 1 else 0)) s l := by
  induction h with
  | nil => intro; exact List.Chain.nil
  | cons s l hm hrest ih =>
    intro h0
    have hcol : (advanceChar ctx s).charColumn = nextCharIndex s := by
      rw [LLState.charColumn, advanceChar_charIndex, Int.toNat_of_nonneg h0]
    have hge := nextCharIndex_advanceChar_ge ctx s
    refine List.chain_cons.mpr ⟨?_, ih (by omega)⟩
    rw [hcol]
    rfl

theorem chain_colStep_getD (dflt : LLState) :
    ∀ (l : List LLState) (s : LLState),
      List.Chain (fun t u => u.charColumn =
        t.charColumn + 1 + (if t.charIsSurrogatePair then 1 else 0)) s l →
      s.charIsSurrogatePair = false →
      (∀ t ∈ l, t.charIsSurrogatePair = false) →
      ∀ k, k < l.length → (l.getD k dflt).charColumn = s.charColumn + 1 + (k : Int)
  | [], _, _, _, _, k, hk => by simp at hk
  | u :: l, s, hch, hs, hall, 0, _ => by
    rcases List.chain_cons.mp hch with ⟨h1, _⟩
    rw [List.getD_cons_zero, h1, hs]
    simp
  | u :: l, s, hch, hs, hall, k + 1, hk => by
    rcases List.chain_cons.mp hch with ⟨h1, h2⟩
    have hu : u.charIsSurrogatePair = false := hall u (List.mem_cons_self u l)
    have hrec := chain_colStep_getD dflt l u h2 hu
      (fun t ht => hall t (List.mem_cons_of_mem u ht)) k (by simpa using hk)
    rw [List.getD_cons_succ, hrec, h1, hs]
    push_cast
    ring

/-- C2 (amended): the cursor's logical column is the code-unit index of the
character's first unit within the line, so a surrogate pair advances the
next character's column by 2, not 1; the absolute file offset is always
line start plus that column (they advance in lockstep); and only for lines
without surrogate pairs does the column coincide with the character
ordinal. -/
theorem surrogate_column_amended :
    (∀ (ctx : LLCtx) (s : LLState),
      charFileIndex ctx s = (ctx.lineStartIndex : Int) + s.charColumn) ∧
    (∀ (ctx : LLCtx) (s : LLState) (l : List LLState), IsRun ctx s l →
      0 ≤ nextCharIndex s →
      List.Chain (fun t u => u.charColumn =
        t.charColumn + 1 + (if t.charIsSurrogatePair then 1 else 0)) s l) ∧
    (∀ (ctx : LLCtx) (l : List LLState), IsRun ctx llInit l →
      (∀ t ∈ l, t.charIsSurrogatePair = false) →
      ∀ k, k < l.length → (l.getD k llInit).charColumn = (k : Int)) := by
  refine ⟨fun ctx s => rfl, fun ctx s l h h0 => isRun_colStep_chain ctx h h0, ?_⟩
  intro ctx l h hall k hk
  have h00 : nextCharIndex llInit = 0 := by simp [nextCharIndex, llInit]
  have hch := isRun_colStep_chain ctx h (by omega)
  have := chain_colStep_getD llInit l llInit hch rfl hall k hk
  rw [this]
  show (-1 : Int) + 1 + (k : Int) = (k : Int)
  omega

/-- C2 counterexample: over the line consisting of a surrogate pair
followed by the letter a, the second character (ordinal 1, the letter) has
charColumn 2 — the column is a code-unit index, not the character ordinal
counting the pair as one column — and its file offset likewise moved by 2
along with the column. -/
theorem surrogate_column_cex :
    ((lineStates (mkLL vPair 0)).getD 0 llInit).charText = [55296, 56320] ∧
    ((lineStates (mkLL vPair 0)).getD 1 llInit).charColumn = 2 ∧
    ¬ ((lineStates (mkLL vPair 0)).getD 1 llInit).charColumn = 1 ∧
    charFileIndex (mkLL vPair 0) ((lineStates (mkLL vPair 0)).getD 1 llInit) = 2 := by
  decide

/-- C2 witness: the amended column law evaluated over the pair-free line of
vAB — the run exists, has no surrogate pairs, and its second state's column
is the ordinal 1. -/
theorem surrogate_column_amended_witness :
    (IsRun (mkLL vAB 0) llInit (lineStates (mkLL vAB 0)) ∧
      (∀ t ∈ lineStates (mkLL vAB 0), t.charIsSurrogatePair = false) ∧
      1 < (lineStates (mkLL vAB 0)).length) ∧
    ((lineStates (mkLL vAB 0)).getD 1 llInit).charColumn = ((1 : Nat) : Int) :=
  ⟨⟨isRun_lineStates (mkLL vAB 0), by decide, by decide⟩,
    surrogate_column_amended.2.2 (mkLL vAB 0) (lineStates (mkLL vAB 0))
      (isRun_lineStates (mkLL vAB 0)) (by decide) 1 (by decide)⟩

/-! Lone-surrogate helpers. -/

theorem advanceChar_charText_pair (ctx : LLCtx) (s : LLState)
    (hhigh : isHighSurrogate (lcAt ctx (nextCharIndex s).toNat) = true) :
    (advanceChar ctx s).charText =
      [lcAt ctx (nextCharIndex s).toNat, lcAt ctx ((nextCharIndex s).toNat + 1)] := by
  simp only [advanceChar, hhigh]
  simp

/-- C7 (amended): advancing consumes 2 code units exactly when the current
code unit has the high-surrogate flag, with no further validation; in
particular a lone high surrogate that is the last code unit of a line is
consumed as a surrogate pair whose second unit is read from one position
past the line's end in the underlying content (the line separator, or the
null terminator after the last line), and the cursor still terminates
because its next index then lies past the line end. -/
theorem lone_surrogate_amended :
    (∀ (ctx : LLCtx) (s : LLState),
      (advanceChar ctx s).charIsSurrogatePair =
        isHighSurrogate (lcAt ctx (nextCharIndex s).toNat) ∧
      nextCharIndex (advanceChar ctx s) =
        (((nextCharIndex s).toNat : Nat) : Int) + 1 +
          (if isHighSurrogate (lcAt ctx (nextCharIndex s).toNat) then 1 else 0)) ∧
    (∀ (ctx : LLCtx) (s : LLState),
      hasMoreChars ctx s = true →
      (nextCharIndex s).toNat + 1 = ctx.lineContent.length →
      isHighSurrogate (lcAt ctx (nextCharIndex s).toNat) = true →
      (advanceChar ctx s).charIsSurrogatePair = true ∧
      (advanceChar ctx s).charText =
        [lcAt ctx (nextCharIndex s).toNat, ctx.afterLine] ∧
      hasMoreChars ctx (advanceChar ctx s) = false) := by
  refine ⟨fun ctx s => ⟨advanceChar_pair ctx s, nextCharIndex_advanceChar ctx s⟩, ?_⟩
  intro ctx s hm hlen hhigh
  refine ⟨by rw [advanceChar_pair, hhigh], ?_, ?_⟩
  · rw [advanceChar_charText_pair ctx s hhigh]
    have hafter : lcAt ctx ((nextCharIndex s).toNat + 1) = ctx.afterLine := by
      simp only [lcAt]
      rw [if_neg (by omega)]
    rw [hafter]
  · have hnext := nextCharIndex_advanceChar ctx s
    rw [hhigh] at hnext
    simp only [hasMoreChars, decide_eq_false_iff_not]
    omega

/-- C7 counterexample: the first line of vLone is the single lone high
surrogate 0xD800; advancing onto it sets the surrogate-pair flag and reads
the separator one past the line's end as the pair's second unit — it is not
treated as a normal 1-unit character. -/
theorem lone_surrogate_cex :
    (mkLL vLone 0).lineContent = [55296] ∧
    (advanceChar (mkLL vLone 0) llInit).charIsSurrogatePair = true ∧
    (advanceChar (mkLL vLone 0) llInit).charText = [55296, 10] ∧
    ¬ ((advanceChar (mkLL vLone 0) llInit).charIsSurrogatePair = false ∧
       (advanceChar (mkLL vLone 0) llInit).charText = [55296]) := by decide

/-- C7 witness: the amended lone-surrogate law evaluated at vLone's first
line. -/
theorem lone_surrogate_amended_witness :
    (hasMoreChars (mkLL vLone 0) llInit = true ∧
      (nextCharIndex llInit).toNat + 1 = (mkLL vLone 0).lineContent.length ∧
      isHighSurrogate (lcAt (mkLL vLone 0) (nextCharIndex llInit).toNat) = true) ∧
    ((advanceChar (mkLL vLone 0) llInit).charIsSurrogatePair = true ∧
      (advanceChar (mkLL vLone 0) llInit).charText =
        [lcAt (mkLL vLone 0) (nextCharIndex llInit).toNat, (mkLL vLone 0).afterLine] ∧
      hasMoreChars (mkLL vLone 0) (advanceChar (mkLL vLone 0) llInit) = false) :=
  ⟨⟨by decide, by decide, by decide⟩,
    lone_surrogate_amended.2 (mkLL vLone 0) llInit (by decide) (by decide) (by decide)⟩

/-! Tab-expansion helpers. -/

theorem advanceChar_tab (ctx : LLCtx) (s : LLState)
    (htab : lcAt ctx (nextCharIndex s).toNat = 9) :
    (advanceChar ctx s).charText = [] ∧
    (advanceChar ctx s).charWidth =
      ((s.charLeft + s.charWidth) + tabStopPx ctx) / tabStopPx ctx * tabStopPx ctx -
        (s.charLeft + s.charWidth) := by
  simp only [advanceChar, htab]
  rw [if_pos (by decide : isHighSurrogate 9 = false)]
  exact ⟨rfl, rfl⟩

theorem measureLineLength_snoc_tab (pre : List Nat) (T : Nat) (hT : 0 < T) :
    measureLineLength (pre ++ [9]) 0 (pre.length + 1) T =
      (measureLineLength pre 0 pre.length T / T + 1) * T := by
  simp only [measureLineLength, List.drop_zero]
  rw [show pre.length + 1 = (pre ++ [9]).length by simp, List.take_length, List.take_length,
    List.foldl_append]
  simp only [List.foldl_cons, List.foldl_nil, if_pos]
  rw [Nat.add_div_right _ hT]

theorem measureLineLength_replicate_tab (n : Nat) :
    measureLineLength (List.replicate n 9) 0 n kTabStopSize = n * kTabStopSize := by
  induction n with
  | zero => rfl
  | succ n ih =>
    have h8 : (0 : Nat) < kTabStopSize := by decide
    rw [List.replicate_succ']
    rw [show n + 1 = (List.replicate n (9 : Nat)).length + 1 by simp]
    rw [measureLineLength_snoc_tab _ _ h8]
    rw [show (List.replicate n (9 : Nat)).length = n by simp, ih]
    rw [Nat.mul_div_cancel _ h8]

/-- C1: Tab expansion: advancing the cursor onto a tab (code unit 9)
produces the empty rendered text and the width
(charLeft + tabStopPx) / tabStopPx * tabStopPx - charLeft, which is exactly
the distance from the current pixel offset to the next multiple of
tab-stop-size (8) times the space width — the resulting right edge is
divisible by tabStopPx, strictly beyond the current offset, and at most one
full stop away.  Consequently measureLineLength rounds each tab's end
column up to the next multiple of T — appending a tab to a line moves the
visual column to (prior / T + 1) * T — so a line of n tabs from column 0
ends at n * T: one tab from column 0 ends at column 8, and tab, letter,
tab ends the second tab at column 16 for T = 8. -/
theorem tab_expansion :
    (∀ (ctx : LLCtx) (s : LLState), 0 < ctx.spaceWidth →
      hasMoreChars ctx s = true →
      lcAt ctx (nextCharIndex s).toNat = 9 →
      (advanceChar ctx s).charText = [] ∧
      (advanceChar ctx s).charWidth =
        ((advanceChar ctx s).charLeft + tabStopPx ctx) / tabStopPx ctx * tabStopPx ctx -
          (advanceChar ctx s).charLeft ∧
      0 < (advanceChar ctx s).charWidth ∧
      (advanceChar ctx s).charWidth ≤ tabStopPx ctx ∧
      ((advanceChar ctx s).charLeft + (advanceChar ctx s).charWidth) % tabStopPx ctx = 0) ∧
    (∀ (pre : List Nat) (T : Nat), 0 < T →
      measureLineLength (pre ++ [9]) 0 (pre.length + 1) T =
        (measureLineLength pre 0 pre.length T / T + 1) * T) ∧
    (∀ (pos T : Nat), 0 < T →
      (pos / T + 1) * T % T = 0 ∧ pos < (pos / T + 1) * T ∧ (pos / T + 1) * T ≤ pos + T) ∧
    (∀ n : Nat, measureLineLength (List.replicate n 9) 0 n kTabStopSize = n * kTabStopSize) ∧
    measureLineLength [9] 0 1 8 = 8 ∧
    measureLineLength [9, 97, 9] 0 3 8 = 16 := by
  refine ⟨?_, measureLineLength_snoc_tab, ?_, measureLineLength_replicate_tab,
    by decide, by decide⟩
  · intro ctx s hS hm htab
    obtain ⟨ht, hw⟩ := advanceChar_tab ctx s htab
    have hT : 0 < tabStopPx ctx := by
      simp only [tabStopPx, kTabStopSize]
      omega
    have hL := advanceChar_charLeft ctx s
    have hdiv : ((s.charLeft + s.charWidth) + tabStopPx ctx) / tabStopPx ctx =
        (s.charLeft + s.charWidth) / tabStopPx ctx + 1 :=
      Nat.add_div_right _ hT
    have hdm := Nat.div_add_mod (s.charLeft + s.charWidth) (tabStopPx ctx)
    have hmod := Nat.mod_lt (s.charLeft + s.charWidth) hT
    have hexp : ((s.charLeft + s.charWidth) / tabStopPx ctx + 1) * tabStopPx ctx =
        tabStopPx ctx * ((s.charLeft + s.charWidth) / tabStopPx ctx) + tabStopPx ctx := by
      ring
    refine ⟨ht, ?_, ?_, ?_, ?_⟩
    · rw [hw, hL]
    · rw [hw, hdiv]
      omega
    · rw [hw, hdiv]
      omega
    · rw [hw, hL, hdiv]
      have heq : (s.charLeft + s.charWidth) +
          (((s.charLeft + s.charWidth) / tabStopPx ctx + 1) * tabStopPx ctx -
            (s.charLeft + s.charWidth)) =
          ((s.charLeft + s.charWidth) / tabStopPx ctx + 1) * tabStopPx ctx := by
        omega
      rw [heq]
      exact Nat.mul_mod_left _ _
  · intro pos T hT
    have hdm := Nat.div_add_mod pos T
    have hmod := Nat.mod_lt pos hT
    have hexp : (pos / T + 1) * T = T * (pos / T) + T := by ring
    exact ⟨Nat.mul_mod_left _ _, by omega, by omega⟩

/-- C1 witness: the tab law evaluated at the second character of vTab's
first line (the tab after the letter a), together with the concrete
measureLineLength instances. -/
theorem tab_expansion_witness :
    (0 < (mkLL vTab 0).spaceWidth ∧
      hasMoreChars (mkLL vTab 0) (advanceChar (mkLL vTab 0) llInit) = true ∧
      lcAt (mkLL vTab 0)
        (nextCharIndex (advanceChar (mkLL vTab 0) llInit)).toNat = 9) ∧
    ((advanceChar (mkLL vTab 0) (advanceChar (mkLL vTab 0) llInit)).charText = [] ∧
      (advanceChar (mkLL vTab 0) (advanceChar (mkLL vTab 0) llInit)).charWidth =
        ((advanceChar (mkLL vTab 0) (advanceChar (mkLL vTab 0) llInit)).charLeft +
            tabStopPx (mkLL vTab 0)) / tabStopPx (mkLL vTab 0) * tabStopPx (mkLL vTab 0) -
          (advanceChar (mkLL vTab 0) (advanceChar (mkLL vTab 0) llInit)).charLeft ∧
      0 < (advanceChar (mkLL vTab 0) (advanceChar (mkLL vTab 0) llInit)).charWidth ∧
      (advanceChar (mkLL vTab 0) (advanceChar (mkLL vTab 0) llInit)).charWidth ≤
        tabStopPx (mkLL vTab 0) ∧
      ((advanceChar (mkLL vTab 0) (advanceChar (mkLL vTab 0) llInit)).charLeft +
          (advanceChar (mkLL vTab 0) (advanceChar (mkLL vTab 0) llInit)).charWidth) %
        tabStopPx (mkLL vTab 0) = 0) ∧
    measureLineLength (List.replicate 3 9) 0 3 kTabStopSize = 3 * kTabStopSize :=
  ⟨⟨by decide, by decide, by decide⟩,
    tab_expansion.1 (mkLL vTab 0) (advanceChar (mkLL vTab 0) llInit)
      (by decide) (by decide) (by decide),
    tab_expansion.2.2.2.1 3⟩

/-! Word-edge helpers. -/

theorem wordLeftEdge_le (content : List Nat) : ∀ x, wordLeftEdge content x ≤ x
  | 0 => Nat.le_refl 0
  | x + 1 => by
    simp only [wordLeftEdge]
    split
    · exact Nat.le_trans (wordLeftEdge_le content x) (by omega)
    · exact Nat.le_refl _

theorem wordLeftEdge_ident (content : List Nat) :
    ∀ x j, wordLeftEdge content x ≤ j → j < x → isIdentifierChar (content.getD j 0) = true
  | 0, j, _, h2 => absurd h2 (by omega)
  | x + 1, j, h1, h2 => by
    by_cases hx : isIdentifierChar (content.getD x 0) = true
    · rw [wordLeftEdge, if_pos hx] at h1
      by_cases hj : j < x
      · exact wordLeftEdge_ident content x j h1 hj
      · have hjx : j = x := by omega
        rw [hjx]
        exact hx
    · rw [wordLeftEdge, if_neg hx] at h1
      exact absurd h2 (by omega)

theorem wordLeftEdge_boundary (content : List Nat) :
    ∀ x, wordLeftEdge content x = 0 ∨
      isIdentifierChar (content.getD (wordLeftEdge content x - 1) 0) = false
  | 0 => Or.inl rfl
  | x + 1 => by
    by_cases hx : isIdentifierChar (content.getD x 0) = true
    · rw [wordLeftEdge, if_pos hx]
      exact wordLeftEdge_boundary content x
    · rw [wordLeftEdge, if_neg hx]
      right
      simp only [Nat.add_sub_cancel]
      simpa using hx

theorem wordRightEdge_ge (content : List Nat) : ∀ fuel x, x ≤ wordRightEdge content x fuel
  | 0, x => Nat.le_refl x
  | fuel + 1, x => by
    simp only [wordRightEdge]
    split
    · exact Nat.le_trans (by omega) (wordRightEdge_ge content fuel (x + 1))
    · exact Nat.le_refl x

theorem wordRightEdge_lt (content : List Nat) :
    ∀ fuel x, x < content.length → wordRightEdge content x fuel < content.length
  | 0, x, hx => hx
  | fuel + 1, x, hx => by
    simp only [wordRightEdge]
    split
    · next hcond =>
      simp only [Bool.and_eq_true, decide_eq_true_eq] at hcond
      exact wordRightEdge_lt content fuel (x + 1) hcond.1
    · exact hx

theorem wordRightEdge_ident (content : List Nat) :
    ∀ fuel x j, x < j → j ≤ wordRightEdge content x fuel →
      isIdentifierChar (content.getD j 0) = true
  | 0, x, j, h1, h2 => by
    simp only [wordRightEdge] at h2
    exact absurd h1 (by omega)
  | fuel + 1, x, j, h1, h2 => by
    by_cases hcond :
        (decide (x + 1 < content.length) && isIdentifierChar (content.getD (x + 1) 0)) = true
    · rw [wordRightEdge, if_pos hcond] at h2
      simp only [Bool.and_eq_true, decide_eq_true_eq] at hcond
      by_cases hj : x + 1 < j
      · exact wordRightEdge_ident content fuel (x + 1) j hj h2
      · have hjx : j = x + 1 := by omega
        rw [hjx]
        exact hcond.2
    · rw [wordRightEdge, if_neg hcond] at h2
      exact absurd h1 (by omega)

theorem wordRightEdge_boundary (content : List Nat) :
    ∀ fuel x, content.length ≤ x + fuel → x < content.length →
      wordRightEdge content x fuel + 1 = content.length ∨
      isIdentifierChar (content.getD (wordRightEdge content x fuel + 1) 0) = false
  | 0, x, hf, hx => absurd hx (by omega)
  | fuel + 1, x, hf, hx => by
    by_cases hcond :
        (decide (x + 1 < content.length) && isIdentifierChar (content.getD (x + 1) 0)) = true
    · rw [wordRightEdge, if_pos hcond]
      simp only [Bool.and_eq_true, decide_eq_true_eq] at hcond
      exact wordRightEdge_boundary content fuel (x + 1) (by omega) hcond.1
    · rw [wordRightEdge, if_neg hcond]
      simp only [Bool.and_eq_true, decide_eq_true_eq, not_and] at hcond
      by_cases hlen : x + 1 < content.length
      · right
        simpa using hcond hlen
      · left
        omega

theorem findWord_miss_empty (f : File) (pt : FileLocation)
    (h : doesPointAtChar f pt = false) : (findWordAtLocation f pt).isEmpty = true := by
  simp only [findWordAtLocation, h]
  simp [FileRange.isEmpty]

theorem findWord_nonident_eq (f : File) (pt : FileLocation)
    (h : doesPointAtChar f pt = true)
    (hid : isIdentifierChar ((f.lineContent pt.line).getD pt.column 0) = false) :
    findWordAtLocation f pt =
      { start := pt, endLoc := { line := pt.line, column := pt.column + 1 } } := by
  simp only [findWordAtLocation, h, hid]
  simp

theorem findWord_ident_spec (f : File) (pt : FileLocation)
    (h : doesPointAtChar f pt = true)
    (hid : isIdentifierChar ((f.lineContent pt.line).getD pt.column 0) = true) :
    (findWordAtLocation f pt).start.line = pt.line ∧
    (findWordAtLocation f pt).endLoc.line = pt.line ∧
    (findWordAtLocation f pt).start.column ≤ pt.column ∧
    pt.column < (findWordAtLocation f pt).endLoc.column ∧
    (findWordAtLocation f pt).endLoc.column ≤ (f.lineContent pt.line).length ∧
    (∀ j, (findWordAtLocation f pt).start.column ≤ j →
      j < (findWordAtLocation f pt).endLoc.column →
      isIdentifierChar ((f.lineContent pt.line).getD j 0) = true) ∧
    ((findWordAtLocation f pt).start.column = 0 ∨
      isIdentifierChar
        ((f.lineContent pt.line).getD ((findWordAtLocation f pt).start.column - 1) 0)
        = false) ∧
    ((findWordAtLocation f pt).endLoc.column = (f.lineContent pt.line).length ∨
      isIdentifierChar
        ((f.lineContent pt.line).getD ((findWordAtLocation f pt).endLoc.column) 0)
        = false) := by
  have hcol : pt.column < (f.lineContent pt.line).length := by
    simp only [doesPointAtChar, Bool.and_eq_true, decide_eq_true_eq] at h
    exact h.2
  simp only [findWordAtLocation, h, hid]
  simp only [Bool.true_eq_false, if_false]
  have hx1le := wordLeftEdge_le (f.lineContent pt.line) pt.column
  have hx2ge := wordRightEdge_ge (f.lineContent pt.line)
    (f.lineContent pt.line).length pt.column
  have hx2lt := wordRightEdge_lt (f.lineContent pt.line)
    (f.lineContent pt.line).length pt.column hcol
  refine ⟨by trivial, by trivial, hx1le, by omega, by omega, ?_, ?_, ?_⟩
  · intro j hj1 hj2
    by_cases hjc : j < pt.column
    · exact wordLeftEdge_ident (f.lineContent pt.line) pt.column j hj1 hjc
    · by_cases hjc2 : j = pt.column
      · rw [hjc2]
        exact hid
      · exact wordRightEdge_ident (f.lineContent pt.line)
          (f.lineContent pt.line).length pt.column j (by omega) (by omega)
  · exact wordLeftEdge_boundary (f.lineContent pt.line) pt.column
  · exact wordRightEdge_boundary (f.lineContent pt.line)
      (f.lineContent pt.line).length pt.column (by omega) hcol

/-- C5: Word boundary resolution: wordAt of a location that does not point
at an actual character is an empty range; wordAt of a non-word character is
the single-character range there; and wordAt of a word character expands to
a same-line range [x1, x2+1) containing the location, whose characters are
all word characters, whose left end is either column 0 or preceded by a
non-word character, and whose right end is either the line length or
followed by a non-word character.  Concretely, on the line "int foo_bar;"
column 4 yields [4, 11) and column 11 yields [11, 12). -/
theorem word_boundary :
    (∀ (f : File) (pt : FileLocation), doesPointAtChar f pt = false →
      (findWordAtLocation f pt).isEmpty = true) ∧
    (∀ (f : File) (pt : FileLocation), doesPointAtChar f pt = true →
      isIdentifierChar ((f.lineContent pt.line).getD pt.column 0) = false →
      findWordAtLocation f pt =
        { start := pt, endLoc := { line := pt.line, column := pt.column + 1 } }) ∧
    (∀ (f : File) (pt : FileLocation), doesPointAtChar f pt = true →
      isIdentifierChar ((f.lineContent pt.line).getD pt.column 0) = true →
      (findWordAtLocation f pt).start.line = pt.line ∧
      (findWordAtLocation f pt).endLoc.line = pt.line ∧
      (findWordAtLocation f pt).start.column ≤ pt.column ∧
      pt.column < (findWordAtLocation f pt).endLoc.column ∧
      (findWordAtLocation f pt).endLoc.column ≤ (f.lineContent pt.line).length ∧
      (∀ j, (findWordAtLocation f pt).start.column ≤ j →
        j < (findWordAtLocation f pt).endLoc.column →
        isIdentifierChar ((f.lineContent pt.line).getD j 0) = true) ∧
      ((findWordAtLocation f pt).start.column = 0 ∨
        isIdentifierChar
          ((f.lineContent pt.line).getD ((findWordAtLocation f pt).start.column - 1) 0)
          = false) ∧
      ((findWordAtLocation f pt).endLoc.column = (f.lineContent pt.line).length ∨
        isIdentifierChar
          ((f.lineContent pt.line).getD ((findWordAtLocation f pt).endLoc.column) 0)
          = false)) ∧
    findWordAtLocation fileWB { line := 0, column := 4 } =
      { start := { line := 0, column := 4 }, endLoc := { line := 0, column := 11 } } ∧
    findWordAtLocation fileWB { line := 0, column := 11 } =
      { start := { line := 0, column := 11 }, endLoc := { line := 0, column := 12 } } :=
  ⟨findWord_miss_empty, findWord_nonident_eq, findWord_ident_spec, by decide, by decide⟩

/-- C5 witness: the three branches of the word-boundary law evaluated on
the line "int foo_bar;": a location past the line end, the semicolon at
column 11, and the word character at column 4. -/
theorem word_boundary_witness :
    (doesPointAtChar fileWB { line := 0, column := 99 } = false ∧
      doesPointAtChar fileWB { line := 0, column := 11 } = true ∧
      isIdentifierChar ((fileWB.lineContent 0).getD 11 0) = false ∧
      doesPointAtChar fileWB { line := 0, column := 4 } = true ∧
      isIdentifierChar ((fileWB.lineContent 0).getD 4 0) = true) ∧
    (findWordAtLocation fileWB { line := 0, column := 99 }).isEmpty = true ∧
    findWordAtLocation fileWB { line := 0, column := 11 } =
      { start := { line := 0, column := 11 }
        endLoc := { line := 0, column := 12 } } ∧
    (findWordAtLocation fileWB { line := 0, column := 4 }).start.column ≤ 4 :=
  ⟨⟨by decide, by decide, by decide, by decide, by decide⟩,
    word_boundary.1 fileWB { line := 0, column := 99 } (by decide),
    word_boundary.2.1 fileWB { line := 0, column := 11 } (by decide) (by decide),
    (word_boundary.2.2.1 fileWB { line := 0, column := 4 } (by decide) (by decide)).2.2.1⟩

/-- C10: Word-range bounds invariant: whenever the location points at an
actual character of the loaded file, the returned range is non-empty, lies
entirely on the location's line, contains the location's column, and its
end column is at most the line's code-unit length. -/
theorem word_range_bounds (f : File) (pt : FileLocation)
    (h : doesPointAtChar f pt = true) :
    (findWordAtLocation f pt).isEmpty = false ∧
    (findWordAtLocation f pt).start.line = pt.line ∧
    (findWordAtLocation f pt).endLoc.line = pt.line ∧
    (findWordAtLocation f pt).start.column ≤ pt.column ∧
    pt.column < (findWordAtLocation f pt).endLoc.column ∧
    (findWordAtLocation f pt).endLoc.column ≤ f.lineLength pt.line := by
  have hcol : pt.column < (f.lineContent pt.line).length := by
    simp only [doesPointAtChar, Bool.and_eq_true, decide_eq_true_eq] at h
    exact h.2
  by_cases hid : isIdentifierChar ((f.lineContent pt.line).getD pt.column 0) = true
  · have hmain := findWord_ident_spec f pt h hid
    refine ⟨?_, hmain.1, hmain.2.1, hmain.2.2.1, hmain.2.2.2.1, hmain.2.2.2.2.1⟩
    have h1 := hmain.2.2.1
    have h2 := hmain.2.2.2.1
    have h3 := hmain.1
    have h4 := hmain.2.1
    simp only [FileRange.isEmpty, decide_eq_false_iff_not]
    intro heq
    have : (findWordAtLocation f pt).start.column = (findWordAtLocation f pt).endLoc.column := by
      rw [heq]
    omega
  · have hid' : isIdentifierChar ((f.lineContent pt.line).getD pt.column 0) = false := by
      simpa using hid
    have heq := findWord_nonident_eq f pt h hid'
    rw [heq]
    refine ⟨?_, rfl, rfl, Nat.le_refl _, by show pt.column < pt.column + 1; omega, ?_⟩
    · simp only [FileRange.isEmpty, decide_eq_false_iff_not]
      intro hcontr
      have : pt.column = pt.column + 1 := congrArg FileLocation.column hcontr
      omega
    · show pt.column + 1 ≤ f.lineLength pt.line
      exact hcol

/-- C10 witness: the bounds invariant evaluated at column 4 of the line
"int foo_bar;". -/
theorem word_range_bounds_witness :
    (doesPointAtChar fileWB { line := 0, column := 4 } = true) ∧
    ((findWordAtLocation fileWB { line := 0, column := 4 }).isEmpty = false ∧
      (findWordAtLocation fileWB { line := 0, column := 4 }).start.line = 0 ∧
      (findWordAtLocation fileWB { line := 0, column := 4 }).endLoc.line = 0 ∧
      (findWordAtLocation fileWB { line := 0, column := 4 }).start.column ≤ 4 ∧
      4 < (findWordAtLocation fileWB { line := 0, column := 4 }).endLoc.column ∧
      (findWordAtLocation fileWB { line := 0, column := 4 }).endLoc.column ≤
        fileWB.lineLength 0) :=
  ⟨by decide, word_range_bounds fileWB { line := 0, column := 4 } (by decide)⟩

/-! Color-overlay helpers. -/

theorem writeRangeAux_length (c : QtColor) :
    ∀ (n : Nat) (l : List QtColor) (i : Nat), (writeRangeAux c l i n).length = l.length
  | 0, _, _ => rfl
  | n + 1, l, i => by
    simp only [writeRangeAux]
    rw [writeRangeAux_length c n (l.set i c) (i + 1), List.length_set]

theorem writeRangeAux_getD (c d : QtColor) :
    ∀ (n : Nat) (l : List QtColor) (i k : Nat),
      (writeRangeAux c l i n).getD k d =
        if i ≤ k ∧ k < i + n ∧ k < l.length then c else l.getD k d
  | 0, l, i, k => by
    rw [if_neg (by omega)]
    rfl
  | n + 1, l, i, k => by
    simp only [writeRangeAux]
    rw [writeRangeAux_getD c d n (l.set i c) (i + 1) k, List.length_set]
    by_cases hik : i = k
    · subst hik
      by_cases hlen : i < l.length
      · rw [if_neg (by omega), if_pos (by omega)]
        simp [List.getD_eq_getElem?_getD, List.getElem?_set, hlen]
      · rw [if_neg (by omega), if_neg (by omega)]
        simp only [List.getD_eq_getElem?_getD, List.getElem?_set]
        rw [List.getElem?_eq_none (by omega)]
        simp [hlen]
    · have hset : (l.set i c).getD k d = l.getD k d := by
        simp [List.getD_eq_getElem?_getD, List.getElem?_set, hik]
      rw [hset]
      by_cases h1 : i ≤ k ∧ k < i + (n + 1) ∧ k < l.length
      · rw [if_pos (by omega), if_pos h1]
      · rw [if_neg (by omega), if_neg h1]

theorem applyRef_length (f : File) (l : List QtColor) (r : Ref) :
    (applyRef f l r).length = l.length := by
  simp only [applyRef]
  split
  · rfl
  · simp only [writeRange]
    exact writeRangeAux_length _ _ _ _

theorem applyRef_getD (f : File) (l : List QtColor) (r : Ref) (o : Nat) (d : QtColor) :
    (applyRef f l r).getD o d =
      if refCoversB f r o = true ∧ o < l.length then colorForRefType r.symbolType
      else l.getD o d := by
  simp only [applyRef, writeRange]
  by_cases hc : colorForRefType r.symbolType = QtColor.transparent
  · rw [if_pos hc, if_neg (by simp [refCoversB, hc])]
  · rw [if_neg hc, writeRangeAux_getD]
    have hcov : refCoversB f r o = true ↔
        (f.lineStart (r.line - 1) + (r.column - 1) ≤ o ∧
          o < f.lineStart (r.line - 1) + (r.endColumn - 1)) := by
      simp [refCoversB, hc]
    by_cases h1 : refCoversB f r o = true ∧ o < l.length
    · have h2 := hcov.mp h1.1
      have h3 := h1.2
      rw [if_pos (by omega), if_pos h1]
    · rw [if_neg ?_, if_neg h1]
      intro hcontr
      exact h1 ⟨hcov.mpr (by omega), by omega⟩

theorem foldl_applyRef_length (f : File) :
    ∀ (refs : List Ref) (init : List QtColor),
      (refs.foldl (applyRef f) init).length = init.length
  | [], _ => rfl
  | r :: rs, init => by
    rw [List.foldl_cons, foldl_applyRef_length f rs (applyRef f init r), applyRef_length]

theorem foldl_applyRef_getD (f : File) (d : QtColor) :
    ∀ (refs : List Ref) (init : List QtColor) (o : Nat), o < init.length →
      (refs.foldl (applyRef f) init).getD o d =
        (match refs.reverse.find? (fun r => refCoversB f r o) with
         | some r => colorForRefType r.symbolType
         | none => init.getD o d)
  | [], init, o, _ => by simp
  | r :: rs, init, o, ho => by
    rw [List.foldl_cons]
    rw [foldl_applyRef_getD f d rs (applyRef f init r) o (by rw [applyRef_length]; exact ho)]
    rw [List.reverse_cons, List.find?_append]
    cases hfind : rs.reverse.find? (fun r2 => refCoversB f r2 o) with
    | some r2 => rfl
    | none =>
      simp only [Option.none_or]
      rw [applyRef_getD]
      by_cases hc : refCoversB f r o = true
      · rw [if_pos ⟨hc, ho⟩]
        simp [List.find?, hc]
      · rw [if_neg (by simp [hc])]
        have hc' : refCoversB f r o = false := by simpa using hc
        simp [List.find?, hc']

theorem initColoring_length (content : List Nat) (kinds : List Kind) :
    (initColoring content kinds).length = content.length := by
  simp [initColoring]

theorem initColoring_getD (content : List Nat) (kinds : List Kind) (o : Nat) (d : QtColor)
    (hk : kinds.length = content.length) (ho : o < content.length) :
    (initColoring content kinds).getD o d =
      colorForSyntaxKind (kinds.getD o Kind.KindDefault) := by
  simp only [initColoring, List.getD_eq_getElem?_getD, List.getElem?_map]
  rw [List.getElem?_range ho]
  simp only [Option.map_some', Option.getD_some]
  rw [if_pos (by omega)]

/-- C6: Color overlay construction: the per-character color array built at
file load has exactly one entry per code unit of the content; an offset
covered by no color-mapped semantic reference keeps its lexical color from
the fixed kind-to-color table; an offset covered by a color-mapped semantic
reference ends with that reference's (last covering writer's) color, which
is never the transparent no-override value — so a character both classified
as a keyword lexically and covered by a color-mapped reference ends
semantic, as the concrete keyword/Field instance shows. -/
theorem color_overlay :
    (∀ (f : File) (kinds : List Kind) (refs : List Ref),
      (buildColoring f kinds refs).length = f.content.length) ∧
    (∀ (f : File) (kinds : List Kind) (refs : List Ref) (o : Nat),
      kinds.length = f.content.length → o < f.content.length →
      (∀ r ∈ refs, refCoversB f r o = false) →
      (buildColoring f kinds refs).getD o QtColor.color0 =
        colorForSyntaxKind (kinds.getD o Kind.KindDefault)) ∧
    (∀ (f : File) (kinds : List Kind) (refs : List Ref) (o : Nat) (r : Ref),
      o < f.content.length →
      refs.reverse.find? (fun r2 => refCoversB f r2 o) = some r →
      (buildColoring f kinds refs).getD o QtColor.color0 = colorForRefType r.symbolType ∧
      colorForRefType r.symbolType ≠ QtColor.transparent) ∧
    (buildColoring fileKW kindsKW [refKW]).getD 0 QtColor.color0 = QtColor.darkRed ∧
    colorForSyntaxKind Kind.KindKeyword = QtColor.darkYellow ∧
    (initColoring fileKW.content kindsKW).getD 0 QtColor.color0 = QtColor.darkYellow := by
  refine ⟨?_, ?_, ?_, by decide, by decide, by decide⟩
  · intro f kinds refs
    rw [buildColoring, foldl_applyRef_length, initColoring_length]
  · intro f kinds refs o hk ho hnone
    rw [buildColoring, foldl_applyRef_getD f QtColor.color0 refs _ o
      (by rw [initColoring_length]; exact ho)]
    have hfind : refs.reverse.find? (fun r => refCoversB f r o) = none := by
      apply List.find?_eq_none.mpr
      intro r hr
      simp [hnone r (List.mem_reverse.mp hr)]
    rw [hfind]
    exact initColoring_getD f.content kinds o QtColor.color0 hk ho
  · intro f kinds refs o r ho hfind
    have htrans : colorForRefType r.symbolType ≠ QtColor.transparent := by
      have := List.find?_some hfind
      simp only [refCoversB, Bool.and_eq_true, decide_eq_true_eq] at this
      exact this.1.1
    refine ⟨?_, htrans⟩
    rw [buildColoring, foldl_applyRef_getD f QtColor.color0 refs _ o
      (by rw [initColoring_length]; exact ho)]
    rw [hfind]

/-- C6 witness: the three overlay laws evaluated on the file "int x;" with
the keyword classification and a single Field reference over columns 1-3:
the array length matches, the uncovered offset 4 stays lexical, and the
covered offset 0 ends with the reference's darkRed. -/
theorem color_overlay_witness :
    (kindsKW.length = fileKW.content.length ∧
      (4 : Nat) < fileKW.content.length ∧
      (∀ r ∈ [refKW], refCoversB fileKW r 4 = false) ∧
      (0 : Nat) < fileKW.content.length ∧
      [refKW].reverse.find? (fun r2 => refCoversB fileKW r2 0) = some refKW) ∧
    (buildColoring fileKW kindsKW [refKW]).length = fileKW.content.length ∧
    (buildColoring fileKW kindsKW [refKW]).getD 4 QtColor.color0 =
      colorForSyntaxKind (kindsKW.getD 4 Kind.KindDefault) ∧
    ((buildColoring fileKW kindsKW [refKW]).getD 0 QtColor.color0 =
        colorForRefType refKW.symbolType ∧
      colorForRefType refKW.symbolType ≠ QtColor.transparent) :=
  ⟨⟨by decide, by decide, by decide, by decide, by decide⟩,
    color_overlay.1 fileKW kindsKW [refKW],
    color_overlay.2.1 fileKW kindsKW [refKW] 4 (by decide) (by decide) (by decide),
    color_overlay.2.2.1 fileKW kindsKW [refKW] 0 refKW (by decide) (by decide)⟩

/-- C9: Symbol-resolution ambiguity handling: a click whose location maps
to zero symbols triggers no navigation; with more than one symbol the
release handler silently picks nothing (it takes no action at all) while
the context-menu handler — the menu affordance of the view — puts up the
menu listing every candidate symbol rather than navigating; and the release
handler navigates only when the location maps to exactly one symbol. -/
theorem symbol_ambiguity :
    (∀ (sel word : FileRange), mouseReleaseAction sel word [] = UIAction.noAction) ∧
    (∀ (sel word : FileRange) (symbols : List String) (s : String),
      contextMenuAction sel word symbols ≠ UIAction.navigateToDef s) ∧
    (∀ (sel word : FileRange) (symbols : List String), 2 ≤ symbols.length →
      mouseReleaseAction sel word symbols = UIAction.noAction) ∧
    (∀ (sel word : FileRange) (symbols : List String), 2 ≤ symbols.length →
      sel.isEmpty = false → sel = word →
      contextMenuAction sel word symbols = UIAction.symbolMenu symbols) ∧
    (∀ (sel word : FileRange) (symbols : List String) (s : String),
      mouseReleaseAction sel word symbols = UIAction.navigateToDef s →
      symbols.length = 1) := by
  refine ⟨?_, ?_, ?_, ?_, ?_⟩
  · intro sel word
    simp only [mouseReleaseAction]
    split
    · rfl
    · split
      · rw [if_neg (by simp)]
      · rfl
  · intro sel word symbols s
    simp only [contextMenuAction]
    split
    · simp
    · split
      · simp
      · simp
  · intro sel word symbols hlen
    simp only [mouseReleaseAction]
    split
    · rfl
    · split
      · rw [if_neg (by omega)]
      · rfl
  · intro sel word symbols hlen hne hsw
    subst hsw
    have hsymne : symbols.isEmpty = false := by
      cases symbols with
      | nil => simp at hlen
      | cons a l => rfl
    simp only [contextMenuAction]
    rw [if_neg (by simp [hne]), if_neg (by simp [hsymne])]
  · intro sel word symbols s h
    simp only [mouseReleaseAction] at h
    by_cases h1 : sel.isEmpty = true
    · rw [if_pos h1] at h
      exact absurd h (by simp)
    · rw [if_neg h1] at h
      by_cases h2 : sel = word
      · rw [if_pos h2] at h
        by_cases h3 : symbols.length = 1
        · exact h3
        · rw [if_neg h3] at h
          exact absurd h (by simp)
      · rw [if_neg h2] at h
        exact absurd h (by simp)

/-- C9 witness: the ambiguity laws evaluated on the "foo_bar" selection of
fileWB with zero, two, and one candidate symbols. -/
theorem symbol_ambiguity_witness :
    ((2 : Nat) ≤ ["a", "b"].length ∧
      (FileRange.mk ⟨0, 4⟩ ⟨0, 11⟩).isEmpty = false ∧
      FileRange.mk ⟨0, 4⟩ ⟨0, 11⟩ = FileRange.mk ⟨0, 4⟩ ⟨0, 11⟩) ∧
    mouseReleaseAction (FileRange.mk ⟨0, 4⟩ ⟨0, 11⟩) (FileRange.mk ⟨0, 4⟩ ⟨0, 11⟩) []
      = UIAction.noAction ∧
    mouseReleaseAction (FileRange.mk ⟨0, 4⟩ ⟨0, 11⟩) (FileRange.mk ⟨0, 4⟩ ⟨0, 11⟩)
      ["a", "b"] = UIAction.noAction ∧
    contextMenuAction (FileRange.mk ⟨0, 4⟩ ⟨0, 11⟩) (FileRange.mk ⟨0, 4⟩ ⟨0, 11⟩)
      ["a", "b"] = UIAction.symbolMenu ["a", "b"] :=
  ⟨⟨by decide, by decide, by decide⟩,
    symbol_ambiguity.1 (FileRange.mk ⟨0, 4⟩ ⟨0, 11⟩) (FileRange.mk ⟨0, 4⟩ ⟨0, 11⟩),
    symbol_ambiguity.2.2.1 (FileRange.mk ⟨0, 4⟩ ⟨0, 11⟩) (FileRange.mk ⟨0, 4⟩ ⟨0, 11⟩)
      ["a", "b"] (by decide),
    symbol_ambiguity.2.2.2.1 (FileRange.mk ⟨0, 4⟩ ⟨0, 11⟩) (FileRange.mk ⟨0, 4⟩ ⟨0, 11⟩)
      ["a", "b"] (by decide) (by decide) rfl⟩

end SourceWidget
